import Mathlib

/-!
# Work stealing in the Cycles split kernel

A shallow embedding of `intern/cycles/kernel/kernel_work_stealing.h`:

* `get_next_work` hands a global work index to a thread, using one shared
  counter per pool of `WORK_POOL_SIZE` threads;
* `get_work_pixel` decomposes a global work index into pixel x/y and sample.

Conventions of the embedding.

* `uint` values are natural numbers. `get_next_work_u32`, `get_work_pixel_u32`
  and `run_u32` reduce every `uint` operation modulo `2 ^ 32`, as the code
  does. `get_next_work`, `get_work_pixel` and `run` use exact arithmetic: they
  describe the executions in which no `uint` operation wraps, and serve the
  properties stated for exact arithmetic; the two are compared in the last
  sections.
* `WORK_POOL_SIZE` (a compile-time constant of the kernel) and
  `global_size` (`ccl_global_size(0) * ccl_global_size(1)`, fixed by the
  launch) are parameters.
* The two `kernel_assert`s of `get_next_work` compile to nothing in release
  builds; they appear as hypotheses of the theorems, not in the function.
* Undefined behaviour is the result `none`: a counter access outside the
  `work_pools` array, and a division by zero.
* One call of `get_next_work` touches shared memory in a single atomic
  fetch-and-increment, so a concurrent execution is a sequence of calls,
  one per atomic step, in the order of their increments: `run`.
-/

namespace WorkStealing

/-- The fields of `kernel_split_params` that describe the tile being rendered. -/
structure KernelSplitParams where
  x : Nat
  y : Nat
  w : Nat
  h : Nat
  start_sample : Nat
  num_samples : Nat
  deriving DecidableEq, Repr

/-- Modelled from the spec: the device intrinsic `atomic_fetch_and_inc_uint32`
is not part of the source file. "Atomically fetch-and-increment the counter at
`pool`, obtaining `work_index` (the pre-increment value)". The result is the
old value of the counter and the updated array; `none` when `pool` is outside
the array. -/
def atomic_fetch_and_inc_uint32 (work_pools : List Nat) (pool : Nat) :
    Option (Nat × List Nat) :=
  match work_pools[pool]? with
  | none => none
  | some work_index => some (work_index, work_pools.set pool (work_index + 1))

/-- The expression assigned to `*global_work_index` in `get_next_work`
(the per-pool work index mapped to a global work index). -/
def global_index (WORK_POOL_SIZE global_size pool work_index : Nat) : Nat :=
  (work_index / WORK_POOL_SIZE) * global_size
    + (pool * WORK_POOL_SIZE)
    + (work_index % WORK_POOL_SIZE)

/-- What one call of `get_next_work` leaves behind: the returned `bool`, the
value stored through `global_work_index` (`none` when the call stores
nothing) and the counter array after the call. -/
structure NextWork where
  has_work : Bool
  global_work_index : Option Nat
  work_pools : List Nat
  deriving DecidableEq, Repr

/-- The function `get_next_work` in exact arithmetic: what the code does as
long as no `uint` operation wraps. "Returns true if there is work". -/
def get_next_work (kp : KernelSplitParams) (WORK_POOL_SIZE global_size : Nat)
    (work_pools : List Nat) (thread_index : Nat) : Option NextWork :=
  let total_work_size := kp.w * kp.h * kp.num_samples
  if thread_index ≥ total_work_size then
    some ⟨false, none, work_pools⟩
  else if WORK_POOL_SIZE = 0 then
    none
  else
    let pool := thread_index / WORK_POOL_SIZE
    match atomic_fetch_and_inc_uint32 work_pools pool with
    | none => none
    | some (work_index, work_pools') =>
      let global_work_index := global_index WORK_POOL_SIZE global_size pool work_index
      some ⟨decide (global_work_index < total_work_size), some global_work_index, work_pools'⟩

/-- The function `get_work_pixel` in exact arithmetic (what the code does as
long as no `uint` operation wraps): the triple `(x, y, sample)` stored through
the three pointers; `none` when one of the two divisions is by zero. -/
def get_work_pixel (kp : KernelSplitParams) (global_work_index : Nat) :
    Option (Nat × Nat × Nat) :=
  let tile_pixels := kp.w * kp.h
  if tile_pixels = 0 then
    none
  else
    let sample_offset := global_work_index / tile_pixels
    let pixel_offset := global_work_index - sample_offset * tile_pixels
    if kp.w = 0 then
      none
    else
      let y_offset := pixel_offset / kp.w
      let x_offset := pixel_offset - y_offset * kp.w
      some (kp.x + x_offset, kp.y + y_offset, kp.start_sample + sample_offset)

/-- One completed call of `get_next_work`, as the calling thread sees it. -/
structure Claim where
  thread_index : Nat
  has_work : Bool
  global_work_index : Option Nat
  deriving DecidableEq, Repr

/-- A sequence of calls of `get_next_work`, given by the calling threads in
the order of their atomic steps, run from the counter array `work_pools`.
The result is the list of completed calls, in order, and the final counters. -/
def run (kp : KernelSplitParams) (WORK_POOL_SIZE global_size : Nat) :
    List Nat → List Nat → Option (List Claim × List Nat)
  | work_pools, [] => some ([], work_pools)
  | work_pools, thread_index :: calls =>
    match get_next_work kp WORK_POOL_SIZE global_size work_pools thread_index with
    | none => none
    | some r =>
      match run kp WORK_POOL_SIZE global_size r.work_pools calls with
      | none => none
      | some (claims, final) =>
        some (⟨thread_index, r.has_work, r.global_work_index⟩ :: claims, final)

/-- The global work indices returned together with `true`, in call order. -/
def validated (claims : List Claim) : List Nat :=
  claims.filterMap fun c => if c.has_work then c.global_work_index else none

/-- The zero-initialised counter array of a tile pass. -/
def fresh_pools (n : Nat) : List Nat := List.replicate n 0

/-- The value of the counter of `pool`, read as `0` outside the array. -/
def counter (work_pools : List Nat) (pool : Nat) : Nat := work_pools.getD pool 0

/-- The work size `w * h * num_samples` of the tile (`total_work_size`). -/
def total_work_size (kp : KernelSplitParams) : Nat := kp.w * kp.h * kp.num_samples

/-- The indices stored by the calls of the threads of `pool`, in call order. -/
def stored_by_pool (P pool : Nat) (claims : List Claim) : List Nat :=
  (claims.filter fun e => decide (e.thread_index / P = pool)).filterMap Claim.global_work_index

/-- The indices returned with `true` to the threads of `pool`, in call order. -/
def validated_by_pool (P pool : Nat) (claims : List Claim) : List Nat :=
  validated (claims.filter fun e => decide (e.thread_index / P = pool))

/-- What a run of `calls` from the counters `pools`, with result `claims` and
`final`, is known to satisfy. -/
structure RunSpec (kp : KernelSplitParams) (P G : Nat) (pools calls : List Nat)
    (claims : List Claim) (final : List Nat) : Prop where
  length_eq : final.length = pools.length
  threads : claims.map Claim.thread_index = calls
  mono : ∀ j, counter pools j ≤ counter final j
  sound : ∀ e ∈ claims,
    (total_work_size kp ≤ e.thread_index ∧ e.has_work = false ∧ e.global_work_index = none) ∨
    (e.thread_index < total_work_size kp ∧
      ∃ c, counter pools (e.thread_index / P) ≤ c ∧ c < counter final (e.thread_index / P) ∧
        e.global_work_index = some (global_index P G (e.thread_index / P) c) ∧
        e.has_work = decide (global_index P G (e.thread_index / P) c < total_work_size kp))
  complete : ∀ p c, counter pools p ≤ c → c < counter final p →
    ∃ e ∈ claims, e.thread_index / P = p ∧ e.thread_index < total_work_size kp ∧
      e.global_work_index = some (global_index P G p c) ∧
      e.has_work = decide (global_index P G p c < total_work_size kp)

/-- The tile of the spec scenario: `w = 4`, `h = 2`, `start_sample = 0`,
`num_samples = 2`, at the origin. -/
def scenario_tile : KernelSplitParams :=
  { x := 0, y := 0, w := 4, h := 2, start_sample := 0, num_samples := 2 }

/-- Eight threads of the scenario, each calling three times in turn. -/
def scenario_calls : List Nat :=
  [0, 1, 2, 3, 4, 5, 6, 7, 0, 1, 2, 3, 4, 5, 6, 7, 0, 1, 2, 3, 4, 5, 6, 7]

/-- No thread calls again after one of its calls returned `false`: "a thread
disengages permanently the first time it receives no work". -/
def stops_after_false (claims : List Claim) : Prop :=
  claims.Pairwise fun e₁ e₂ => e₁.has_work = false → e₁.thread_index ≠ e₂.thread_index

/-- The value a `uint` (32 bits) holds after an operation whose exact result
is `n`. -/
def wrap_uint (n : Nat) : Nat := n % 2 ^ 32

/-- Modelled from the spec: the device intrinsic `atomic_fetch_and_inc_uint32`
is not part of the source file. This is the fetch-and-increment of
`atomic_fetch_and_inc_uint32` on a counter of 32 bits: the stored value wraps
around at `2 ^ 32`. -/
def atomic_fetch_and_inc_uint32_wrap (work_pools : List Nat) (pool : Nat) :
    Option (Nat × List Nat) :=
  match work_pools[pool]? with
  | none => none
  | some work_index => some (work_index, work_pools.set pool (wrap_uint (work_index + 1)))

/-- The function `get_next_work` with every `uint` operation reduced modulo
`2 ^ 32`. The tile fields, `thread_index`, the counters and `global_size` are
values of 32 bits. -/
def get_next_work_u32 (kp : KernelSplitParams) (WORK_POOL_SIZE global_size : Nat)
    (work_pools : List Nat) (thread_index : Nat) : Option NextWork :=
  let total_work_size := wrap_uint (wrap_uint (kp.w * kp.h) * kp.num_samples)
  if thread_index ≥ total_work_size then
    some ⟨false, none, work_pools⟩
  else if WORK_POOL_SIZE = 0 then
    none
  else
    let pool := thread_index / WORK_POOL_SIZE
    match atomic_fetch_and_inc_uint32_wrap work_pools pool with
    | none => none
    | some (work_index, work_pools') =>
      let global_work_index :=
        wrap_uint (wrap_uint (wrap_uint ((work_index / WORK_POOL_SIZE) * global_size)
            + wrap_uint (pool * WORK_POOL_SIZE))
          + (work_index % WORK_POOL_SIZE))
      some ⟨decide (global_work_index < total_work_size), some global_work_index, work_pools'⟩

/-- A sequence of calls of `get_next_work_u32`, as `run`. -/
def run_u32 (kp : KernelSplitParams) (WORK_POOL_SIZE global_size : Nat) :
    List Nat → List Nat → Option (List Claim × List Nat)
  | work_pools, [] => some ([], work_pools)
  | work_pools, thread_index :: calls =>
    match get_next_work_u32 kp WORK_POOL_SIZE global_size work_pools thread_index with
    | none => none
    | some r =>
      match run_u32 kp WORK_POOL_SIZE global_size r.work_pools calls with
      | none => none
      | some (claims, final) =>
        some (⟨thread_index, r.has_work, r.global_work_index⟩ :: claims, final)

/-- A tile whose work size `65536 * 65536 * 1 = 2 ^ 32` does not fit 32 bits. -/
def overflow_tile : KernelSplitParams :=
  { x := 0, y := 0, w := 65536, h := 65536, start_sample := 0, num_samples := 1 }

/-- The remap expression of `get_next_work` as 32 bits evaluate it: the value
`get_next_work_u32` stores through `global_work_index`. -/
def global_index_u32 (WORK_POOL_SIZE global_size pool work_index : Nat) : Nat :=
  wrap_uint (wrap_uint (wrap_uint ((work_index / WORK_POOL_SIZE) * global_size)
      + wrap_uint (pool * WORK_POOL_SIZE))
    + (work_index % WORK_POOL_SIZE))

/-- The difference `a - b` of two `uint` values, which wraps around below zero. -/
def sub_uint (a b : Nat) : Nat := (a + 2 ^ 32 - b % 2 ^ 32) % 2 ^ 32

/-- The function `get_work_pixel` with every `uint` operation reduced modulo
`2 ^ 32`; `none` when one of the two divisions is by zero. The tile fields and
the index are values of 32 bits. -/
def get_work_pixel_u32 (kp : KernelSplitParams) (global_work_index : Nat) :
    Option (Nat × Nat × Nat) :=
  let tile_pixels := wrap_uint (kp.w * kp.h)
  if tile_pixels = 0 then
    none
  else
    let sample_offset := global_work_index / tile_pixels
    let pixel_offset := sub_uint global_work_index (wrap_uint (sample_offset * tile_pixels))
    if kp.w = 0 then
      none
    else
      let y_offset := pixel_offset / kp.w
      let x_offset := sub_uint pixel_offset (wrap_uint (y_offset * kp.w))
      some (wrap_uint (kp.x + x_offset), wrap_uint (kp.y + y_offset),
        wrap_uint (kp.start_sample + sample_offset))

/-- A tile whose work size `65535 * 1 * 65537 = 2 ^ 32 - 1` is the largest that
fits 32 bits. -/
def big_tile : KernelSplitParams :=
  { x := 0, y := 0, w := 65535, h := 1, start_sample := 0, num_samples := 65537 }

/-- A tile of eight pixels at the right edge of the `uint` range:
`x = 2 ^ 32 - 1`, `w = 4`, `h = 2`, one sample. -/
def edge_tile : KernelSplitParams :=
  { x := 4294967295, y := 0, w := 4, h := 2, start_sample := 0, num_samples := 1 }

/-- A tile of six work units: `w = 3`, `h = 2`, one sample. -/
def small_tile : KernelSplitParams :=
  { x := 0, y := 0, w := 3, h := 2, start_sample := 0, num_samples := 1 }

/-! ## Arithmetic of the index remap -/

section Remap

variable {P G : Nat}

theorem pool_offset_lt (hP : 0 < P) (hdvd : P ∣ G) {pool c : Nat} (hpool : pool < G / P) :
    pool * P + c % P < G := by
  obtain ⟨k, rfl⟩ := hdvd
  rw [Nat.mul_div_cancel_left k hP] at hpool
  have h1 : c % P < P := Nat.mod_lt c hP
  have h2 : (pool + 1) * P ≤ k * P := Nat.mul_le_mul_right P hpool
  nlinarith [Nat.mul_comm P k]

theorem global_index_div (hP : 0 < P) (hdvd : P ∣ G) {pool c : Nat} (hpool : pool < G / P) :
    global_index P G pool c / G = c / P := by
  have hlt := pool_offset_lt hP hdvd (c := c) hpool
  have hG : 0 < G := by omega
  unfold global_index
  rw [Nat.add_assoc, Nat.add_comm, Nat.add_mul_div_right _ _ hG, Nat.div_eq_of_lt hlt,
    Nat.zero_add]

theorem global_index_mod (hP : 0 < P) (hdvd : P ∣ G) {pool c : Nat} (hpool : pool < G / P) :
    global_index P G pool c % G = pool * P + c % P := by
  have hlt := pool_offset_lt hP hdvd (c := c) hpool
  unfold global_index
  rw [Nat.add_assoc, Nat.add_comm, Nat.add_mul_mod_self_right, Nat.mod_eq_of_lt hlt]

theorem global_index_pool (hP : 0 < P) (hdvd : P ∣ G) {pool c : Nat} (hpool : pool < G / P) :
    global_index P G pool c % G / P = pool := by
  rw [global_index_mod hP hdvd hpool, Nat.add_comm, Nat.add_mul_div_right _ _ hP,
    Nat.div_eq_of_lt (Nat.mod_lt c hP), Nat.zero_add]

theorem global_index_counter (hP : 0 < P) (hdvd : P ∣ G) {pool c : Nat} (hpool : pool < G / P) :
    global_index P G pool c / G * P + global_index P G pool c % G % P = c := by
  rw [global_index_div hP hdvd hpool, global_index_mod hP hdvd hpool, Nat.add_comm (pool * P),
    Nat.add_mul_mod_self_right, Nat.mod_mod, Nat.mul_comm]
  exact Nat.div_add_mod c P

theorem global_index_inj (hP : 0 < P) (hdvd : P ∣ G) {p q c d : Nat}
    (hp : p < G / P) (hq : q < G / P) (h : global_index P G p c = global_index P G q d) :
    p = q ∧ c = d := by
  constructor
  · rw [← global_index_pool hP hdvd (c := c) hp, h, global_index_pool hP hdvd hq]
  · rw [← global_index_counter hP hdvd (c := c) hp, h, global_index_counter hP hdvd hq]

theorem global_index_surj (hP : 0 < P) (hG : 0 < G) (hdvd : P ∣ G) (g : Nat) :
    g % G / P < G / P ∧ global_index P G (g % G / P) (g / G * P + g % G % P) = g := by
  have hlt : g % G < G := Nat.mod_lt g hG
  constructor
  · exact Nat.div_lt_div_of_lt_of_dvd hdvd hlt
  · unfold global_index
    rw [Nat.add_comm (g / G * P), Nat.add_mul_div_right _ _ hP,
      Nat.div_eq_of_lt (Nat.mod_lt _ hP), Nat.zero_add, Nat.add_mul_mod_self_right, Nat.mod_mod,
      Nat.add_assoc, Nat.mul_comm (g % G / P), Nat.div_add_mod (g % G) P, Nat.div_add_mod']

theorem global_index_lt (hP : 0 < P) (hdvd : P ∣ G) {pool : Nat} (hpool : pool < G / P)
    {c d : Nat} (h : c < d) : global_index P G pool c < global_index P G pool d := by
  have hc := Nat.div_add_mod c P
  have hd := Nat.div_add_mod d P
  have hle : c / P ≤ d / P := Nat.div_le_div_right h.le
  rcases hle.eq_or_lt with heq | hlt
  · unfold global_index
    rw [heq] at hc ⊢
    omega
  · have hstep : (c / P + 1) * G ≤ d / P * G := Nat.mul_le_mul_right G hlt
    have hoff := pool_offset_lt hP hdvd (c := c) hpool
    rw [Nat.add_mul, Nat.one_mul] at hstep
    unfold global_index
    omega

theorem global_index_strictMono (hP : 0 < P) (hdvd : P ∣ G) {pool : Nat} (hpool : pool < G / P) :
    StrictMono (global_index P G pool) :=
  fun _ _ h => global_index_lt hP hdvd hpool h

end Remap

/-! ## One call -/

section Step

variable {kp : KernelSplitParams} {P G : Nat} {pools : List Nat} {t : Nat}

theorem counter_set (pools : List Nat) (i j v : Nat) (hi : i < pools.length) :
    counter (pools.set i v) j = if i = j then v else counter pools j := by
  unfold counter
  rw [List.getD_eq_getElem?_getD, List.getD_eq_getElem?_getD, List.getElem?_set]
  by_cases h : i = j
  · simp [h, hi, h ▸ hi]
  · simp [h]

theorem counter_of_get {pools : List Nat} {i c : Nat} (h : pools[i]? = some c) :
    counter pools i = c := by
  unfold counter
  rw [List.getD_eq_getElem?_getD, h]; rfl

theorem get_eq_counter {pools : List Nat} {i : Nat} (h : i < pools.length) :
    pools[i]? = some (counter pools i) := by
  unfold counter
  rw [List.getD_eq_getElem?_getD, List.getElem?_eq_getElem h]; rfl

theorem counter_fresh (n i : Nat) : counter (fresh_pools n) i = 0 := by
  unfold counter fresh_pools
  rw [List.getD_eq_getElem?_getD, List.getElem?_replicate]
  split <;> rfl

theorem get_next_work_early (h : total_work_size kp ≤ t) :
    get_next_work kp P G pools t = some ⟨false, none, pools⟩ := by
  unfold total_work_size at h
  simp [get_next_work, h]

theorem get_next_work_claim (hP : 0 < P) (ht : t < total_work_size kp)
    (hpool : t / P < pools.length) :
    get_next_work kp P G pools t =
      some ⟨decide (global_index P G (t / P) (counter pools (t / P)) < total_work_size kp),
        some (global_index P G (t / P) (counter pools (t / P))),
        pools.set (t / P) (counter pools (t / P) + 1)⟩ := by
  unfold total_work_size at ht ⊢
  have hne : P ≠ 0 := by omega
  simp [get_next_work, Nat.not_le.mpr ht, hne, atomic_fetch_and_inc_uint32,
    get_eq_counter hpool]

end Step

/-! ## Sequences of calls -/

section Run

variable {kp : KernelSplitParams} {P G : Nat}

theorem run_spec (kp : KernelSplitParams) (P G : Nat) (hP : 0 < P) : ∀ (calls pools : List Nat),
    (∀ t ∈ calls, t / P < pools.length) →
    ∃ claims final, run kp P G pools calls = some (claims, final) ∧
      RunSpec kp P G pools calls claims final := by
  intro calls
  induction calls with
  | nil =>
    intro pools _
    refine ⟨[], pools, rfl, ⟨rfl, rfl, fun _ => le_rfl, ?_, ?_⟩⟩
    · intro e he; simp at he
    · intro p c h1 h2; omega
  | cons t ts ih =>
    intro pools hcalls
    have htp : t / P < pools.length := hcalls t (List.mem_cons_self _ _)
    by_cases ht : t < total_work_size kp
    · have hlen : (pools.set (t / P) (counter pools (t / P) + 1)).length = pools.length :=
        List.length_set _ _ _
      obtain ⟨claims, final, hrun, hs⟩ := ih (pools.set (t / P) (counter pools (t / P) + 1))
        (fun u hu => by rw [hlen]; exact hcalls u (List.mem_cons_of_mem _ hu))
      have hcnt : ∀ j, counter (pools.set (t / P) (counter pools (t / P) + 1)) j =
          if t / P = j then counter pools (t / P) + 1 else counter pools j :=
        fun j => counter_set pools _ j _ htp
      have hstep : ∀ j, counter pools j ≤
          counter (pools.set (t / P) (counter pools (t / P) + 1)) j := by
        intro j; rw [hcnt j]; split
        · next h => rw [← h]; omega
        · exact le_rfl
      have hhead : counter pools (t / P) < counter final (t / P) := by
        have := hs.mono (t / P); rw [hcnt] at this; simp at this; omega
      refine ⟨⟨t, decide (global_index P G (t / P) (counter pools (t / P)) < total_work_size kp),
        some (global_index P G (t / P) (counter pools (t / P)))⟩ :: claims, final,
        ?_, ⟨?_, ?_, ?_, ?_, ?_⟩⟩
      · simp only [run, get_next_work_claim hP ht htp, hrun]
      · rw [hs.length_eq, hlen]
      · simp [hs.threads]
      · exact fun j => le_trans (hstep j) (hs.mono j)
      · intro e he
        rcases List.mem_cons.mp he with rfl | he
        · exact Or.inr ⟨ht, counter pools (t / P), le_rfl, hhead, rfl, rfl⟩
        · rcases hs.sound e he with h | ⟨h1, c, h2, h3, h4, h5⟩
          · exact Or.inl h
          · exact Or.inr ⟨h1, c, le_trans (hstep _) h2, h3, h4, h5⟩
      · intro p c h1 h2
        by_cases hpc : t / P = p ∧ c = counter pools (t / P)
        · obtain ⟨rfl, rfl⟩ := hpc
          exact ⟨_, List.mem_cons_self _ _, rfl, ht, rfl, rfl⟩
        · have h1' : counter (pools.set (t / P) (counter pools (t / P) + 1)) p ≤ c := by
            rw [hcnt p]; split
            · next h => subst h; simp at hpc; omega
            · exact h1
          obtain ⟨e, he, h⟩ := hs.complete p c h1' h2
          exact ⟨e, List.mem_cons_of_mem _ he, h⟩
    · have hge : total_work_size kp ≤ t := Nat.le_of_not_lt ht
      obtain ⟨claims, final, hrun, hs⟩ := ih pools
        (fun u hu => hcalls u (List.mem_cons_of_mem _ hu))
      refine ⟨⟨t, false, none⟩ :: claims, final, ?_, ⟨hs.length_eq, ?_, hs.mono, ?_, ?_⟩⟩
      · simp only [run, get_next_work_early hge, hrun]
      · simp [hs.threads]
      · intro e he
        rcases List.mem_cons.mp he with rfl | he
        · exact Or.inl ⟨hge, rfl, rfl⟩
        · exact hs.sound e he
      · intro p c h1 h2
        obtain ⟨e, he, h⟩ := hs.complete p c h1 h2
        exact ⟨e, List.mem_cons_of_mem _ he, h⟩

theorem run_append (calls₁ calls₂ pools : List Nat) :
    run kp P G pools (calls₁ ++ calls₂) =
      match run kp P G pools calls₁ with
      | none => none
      | some (claims₁, mid) =>
        match run kp P G mid calls₂ with
        | none => none
        | some (claims₂, final) => some (claims₁ ++ claims₂, final) := by
  induction calls₁ generalizing pools with
  | nil =>
    simp only [List.nil_append, run]
    cases run kp P G pools calls₂ with
    | none => rfl
    | some r => rfl
  | cons t ts ih =>
    rw [List.cons_append, run, run]
    cases get_next_work kp P G pools t with
    | none => rfl
    | some r =>
      simp only
      rw [ih r.work_pools]
      cases run kp P G r.work_pools ts with
      | none => rfl
      | some r₁ =>
        obtain ⟨claims₁, mid⟩ := r₁
        simp only
        cases run kp P G mid calls₂ with
        | none => rfl
        | some r₂ => rfl

theorem run_eq_spec (hP : 0 < P) {calls pools : List Nat} {claims : List Claim}
    {final : List Nat} (hcalls : ∀ t ∈ calls, t / P < pools.length)
    (hrun : run kp P G pools calls = some (claims, final)) :
    RunSpec kp P G pools calls claims final := by
  obtain ⟨claims', final', hrun', hs⟩ := run_spec kp P G hP calls pools hcalls
  rw [hrun] at hrun'
  obtain ⟨rfl, rfl⟩ := Prod.mk.inj (Option.some.inj hrun')
  exact hs

theorem pool_lt_of_lt (hdvd : P ∣ G) {t : Nat} (ht : t < G) : t / P < G / P :=
  Nat.div_lt_div_of_lt_of_dvd hdvd ht

theorem mem_validated {claims : List Claim} {g : Nat} :
    g ∈ validated claims ↔
      ∃ e ∈ claims, e.has_work = true ∧ e.global_work_index = some g := by
  unfold validated
  rw [List.mem_filterMap]
  constructor
  · rintro ⟨e, he, h⟩
    by_cases hw : e.has_work = true
    · exact ⟨e, he, hw, by simpa [hw] using h⟩
    · simp [hw] at h
  · rintro ⟨e, he, hw, h⟩
    exact ⟨e, he, by simp [hw, h]⟩

theorem validated_cons (e : Claim) (claims : List Claim) :
    validated (e :: claims) =
      match (if e.has_work then e.global_work_index else none) with
      | none => validated claims
      | some g => g :: validated claims := by
  cases h : (if e.has_work = true then e.global_work_index else none) <;>
    simp [validated, List.filterMap_cons, h]

theorem run_validated_nodup (hP : 0 < P) (hdvd : P ∣ G) : ∀ (calls pools : List Nat)
    (claims : List Claim) (final : List Nat), pools.length = G / P → (∀ t ∈ calls, t < G) →
    run kp P G pools calls = some (claims, final) → (validated claims).Nodup := by
  intro calls
  induction calls with
  | nil =>
    intro pools claims final _ _ hrun
    simp only [run] at hrun
    obtain ⟨rfl, -⟩ := Prod.mk.inj (Option.some.inj hrun)
    exact List.nodup_nil
  | cons t ts ih =>
    intro pools claims final hlen hcalls hrun
    have htG : t < G := hcalls t (List.mem_cons_self _ _)
    have htp : t / P < pools.length := by rw [hlen]; exact pool_lt_of_lt hdvd htG
    have hts : ∀ u ∈ ts, u < G := fun u hu => hcalls u (List.mem_cons_of_mem _ hu)
    rw [run] at hrun
    by_cases ht : t < total_work_size kp
    · rw [get_next_work_claim hP ht htp] at hrun
      simp only at hrun
      have hlen' : (pools.set (t / P) (counter pools (t / P) + 1)).length = G / P := by
        rw [List.length_set, hlen]
      cases hrest : run kp P G (pools.set (t / P) (counter pools (t / P) + 1)) ts with
      | none => rw [hrest] at hrun; simp at hrun
      | some res =>
        obtain ⟨claims', final'⟩ := res
        rw [hrest] at hrun
        simp only at hrun
        obtain ⟨rfl, rfl⟩ := Prod.mk.inj (Option.some.inj hrun)
        have hnd := ih _ claims' final' hlen' hts hrest
        have hs := run_eq_spec hP
          (fun u hu => by rw [hlen']; exact pool_lt_of_lt hdvd (hts u hu)) hrest
        rw [validated_cons]
        by_cases hv : global_index P G (t / P) (counter pools (t / P)) < total_work_size kp
        · simp only [hv, decide_True, if_true]
          refine List.nodup_cons.mpr ⟨?_, hnd⟩
          intro hmem
          obtain ⟨e, he, -, hg⟩ := mem_validated.mp hmem
          rcases hs.sound e he with ⟨-, -, hn⟩ | ⟨-, c, hc, -, hgi, -⟩
          · rw [hn] at hg; simp at hg
          · rw [hgi] at hg
            have heq := Option.some.inj hg
            have heG : e.thread_index < G := by
              apply hts; rw [← hs.threads]; exact List.mem_map_of_mem _ he
            obtain ⟨hp, hcc⟩ := global_index_inj hP hdvd (pool_lt_of_lt hdvd heG)
              (pool_lt_of_lt hdvd htG) heq
            rw [hp, counter_set _ _ _ _ htp] at hc
            simp at hc
            omega
        · simp only [hv, decide_False]
          exact hnd
    · rw [get_next_work_early (Nat.le_of_not_lt ht)] at hrun
      simp only at hrun
      cases hrest : run kp P G pools ts with
      | none => rw [hrest] at hrun; simp at hrun
      | some res =>
        obtain ⟨claims', final'⟩ := res
        rw [hrest] at hrun
        simp only at hrun
        obtain ⟨rfl, rfl⟩ := Prod.mk.inj (Option.some.inj hrun)
        rw [validated_cons]
        exact ih _ claims' final' hlen hts hrest

theorem fresh_pools_length (n : Nat) : (fresh_pools n).length = n := by
  simp [fresh_pools]

theorem run_cons_inv {t : Nat} {ts pools : List Nat} {claims : List Claim} {final : List Nat}
    (hrun : run kp P G pools (t :: ts) = some (claims, final)) :
    ∃ r claims', get_next_work kp P G pools t = some r ∧
      run kp P G r.work_pools ts = some (claims', final) ∧
      claims = ⟨t, r.has_work, r.global_work_index⟩ :: claims' := by
  rw [run] at hrun
  cases hstep : get_next_work kp P G pools t with
  | none => rw [hstep] at hrun; simp at hrun
  | some r =>
    rw [hstep] at hrun
    simp only at hrun
    cases hrest : run kp P G r.work_pools ts with
    | none => rw [hrest] at hrun; simp at hrun
    | some res =>
      obtain ⟨claims', final'⟩ := res
      rw [hrest] at hrun
      simp only at hrun
      obtain ⟨rfl, rfl⟩ := Prod.mk.inj (Option.some.inj hrun)
      exact ⟨r, claims', rfl, hrest, rfl⟩

theorem validated_sublist (claims : List Claim) :
    List.Sublist (validated claims) (claims.filterMap Claim.global_work_index) := by
  induction claims with
  | nil => exact List.Sublist.slnil
  | cons e es ih =>
    rw [validated_cons, List.filterMap_cons]
    cases hw : e.has_work <;> cases hg : e.global_work_index <;> simp [ih]

theorem mem_stored_by_pool {P pool : Nat} {claims : List Claim} {g : Nat} :
    g ∈ stored_by_pool P pool claims ↔
      ∃ e ∈ claims, e.thread_index / P = pool ∧ e.global_work_index = some g := by
  unfold stored_by_pool
  simp only [List.mem_filterMap, List.mem_filter, decide_eq_true_eq]
  constructor
  · rintro ⟨e, ⟨he, hp⟩, hg⟩; exact ⟨e, he, hp, hg⟩
  · rintro ⟨e, he, hp, hg⟩; exact ⟨e, ⟨he, hp⟩, hg⟩

theorem stored_by_pool_cons (P pool : Nat) (e : Claim) (claims : List Claim) :
    stored_by_pool P pool (e :: claims) =
      if e.thread_index / P = pool then
        match e.global_work_index with
        | none => stored_by_pool P pool claims
        | some g => g :: stored_by_pool P pool claims
      else stored_by_pool P pool claims := by
  unfold stored_by_pool
  by_cases h : e.thread_index / P = pool
  · rw [if_pos h, List.filter_cons_of_pos (by simpa using h), List.filterMap_cons]
    cases e.global_work_index <;> rfl
  · rw [if_neg h, List.filter_cons_of_neg (by simpa using h)]

theorem run_stored_increasing (hP : 0 < P) (hdvd : P ∣ G) {pool : Nat} (hpool : pool < G / P) :
    ∀ (calls pools : List Nat) (claims : List Claim) (final : List Nat),
    pools.length = G / P → (∀ t ∈ calls, t < G) →
    run kp P G pools calls = some (claims, final) →
    (stored_by_pool P pool claims).Pairwise (· < ·) := by
  intro calls
  induction calls with
  | nil =>
    intro pools claims final _ _ hrun
    simp only [run] at hrun
    obtain ⟨rfl, -⟩ := Prod.mk.inj (Option.some.inj hrun)
    exact List.Pairwise.nil
  | cons t ts ih =>
    intro pools claims final hlen hcalls hrun
    have htG : t < G := hcalls t (List.mem_cons_self _ _)
    have htp : t / P < pools.length := by rw [hlen]; exact pool_lt_of_lt hdvd htG
    have hts : ∀ u ∈ ts, u < G := fun u hu => hcalls u (List.mem_cons_of_mem _ hu)
    obtain ⟨r, claims', hstep, hrest, rfl⟩ := run_cons_inv hrun
    rw [stored_by_pool_cons]
    by_cases ht : t < total_work_size kp
    · rw [get_next_work_claim hP ht htp] at hstep
      obtain rfl := Option.some.inj hstep
      simp only at hrest ⊢
      have hlen' : (pools.set (t / P) (counter pools (t / P) + 1)).length = G / P := by
        rw [List.length_set, hlen]
      have hpw := ih _ claims' final hlen' hts hrest
      have hs := run_eq_spec hP
        (fun u hu => by rw [hlen']; exact pool_lt_of_lt hdvd (hts u hu)) hrest
      split
      · next hp =>
        refine List.pairwise_cons.mpr ⟨?_, hpw⟩
        intro g' hg'
        obtain ⟨e, he, hep, hg⟩ := mem_stored_by_pool.mp hg'
        rcases hs.sound e he with ⟨-, -, hn⟩ | ⟨-, c, hc, -, hgi, -⟩
        · rw [hn] at hg; cases hg
        · rw [hgi] at hg
          rw [← Option.some.inj hg, hep, hp]
          rw [hep, ← hp, counter_set _ _ _ _ htp, if_pos rfl, hp] at hc
          exact global_index_lt hP hdvd hpool hc
      · exact hpw
    · rw [get_next_work_early (Nat.le_of_not_lt ht)] at hstep
      obtain rfl := Option.some.inj hstep
      simp only at hrest ⊢
      have hpw := ih _ claims' final hlen hts hrest
      split <;> exact hpw

end Run

/-! ## The claims -/

/-- C1 (uniqueness). With `WORK_POOL_SIZE = P > 0`, `global_size = G` a positive
multiple of `P` and exact arithmetic, every finite sequence of `get_next_work`
calls by threads with `thread_index < G`, each one atomic step, started from
the all-zero counter array of length `G / P`, runs to its end, and no two of
its calls that return `true` return the same `global_work_index`. -/
theorem get_next_work_unique (kp : KernelSplitParams) (P G : Nat) (calls : List Nat)
    (hP : 0 < P) (_hG : 0 < G) (hdvd : P ∣ G) (hcalls : ∀ t ∈ calls, t < G) :
    ∃ claims final, run kp P G (fresh_pools (G / P)) calls = some (claims, final) ∧
      (validated claims).Nodup := by
  obtain ⟨claims, final, hrun, -⟩ := run_spec kp P G hP calls (fresh_pools (G / P))
    (fun t ht => by rw [fresh_pools_length]; exact pool_lt_of_lt hdvd (hcalls t ht))
  exact ⟨claims, final, hrun,
    run_validated_nodup hP hdvd calls _ claims final (fresh_pools_length _) hcalls hrun⟩

theorem get_next_work_unique_witness :
    0 < 4 ∧ 0 < 8 ∧ 4 ∣ 8 ∧ (∀ t ∈ scenario_calls, t < 8) ∧
    ∃ claims final, run scenario_tile 4 8 (fresh_pools (8 / 4)) scenario_calls
        = some (claims, final) ∧ (validated claims).Nodup :=
  ⟨by decide, by decide, by decide, by decide,
    get_next_work_unique scenario_tile 4 8 scenario_calls (by decide) (by decide) (by decide)
      (by decide)⟩

/-- C2 (completeness). With `P > 0`, `G` a positive multiple of `P`, exact
arithmetic and counters initially zero, every interleaving of `get_next_work`
calls by threads of `[0, G)` runs to its end, and once every thread of
`[0, G)` has received `false`, the set of `global_work_index` values returned
with `true` is exactly `{0, ..., T - 1}`, `T = w * h * num_samples`. (This
holds for every such interleaving, in particular for those in which a thread
makes no call after its first `false`.) -/
theorem get_next_work_complete (kp : KernelSplitParams) (P G : Nat) (calls : List Nat)
    (hP : 0 < P) (hG : 0 < G) (hdvd : P ∣ G) (hcalls : ∀ t ∈ calls, t < G) :
    ∃ claims final, run kp P G (fresh_pools (G / P)) calls = some (claims, final) ∧
      ((∀ t, t < G → ∃ e ∈ claims, e.thread_index = t ∧ e.has_work = false) →
        ∀ g, g ∈ validated claims ↔ g < kp.w * kp.h * kp.num_samples) := by
  obtain ⟨claims, final, hrun, hs⟩ := run_spec kp P G hP calls (fresh_pools (G / P))
    (fun t ht => by rw [fresh_pools_length]; exact pool_lt_of_lt hdvd (hcalls t ht))
  refine ⟨claims, final, hrun, fun hdone g => ?_⟩
  change g ∈ validated claims ↔ g < total_work_size kp
  constructor
  · intro hmem
    obtain ⟨e, he, hw, hg⟩ := mem_validated.mp hmem
    rcases hs.sound e he with ⟨-, hf, -⟩ | ⟨-, c, -, -, hgi, hd⟩
    · rw [hf] at hw; cases hw
    · rw [hgi] at hg
      rw [← Option.some.inj hg]
      rw [hw] at hd
      exact of_decide_eq_true hd.symm
  · intro hg
    obtain ⟨hp, hgi⟩ := global_index_surj hP hG hdvd g
    generalize g % G / P = p at hp hgi
    generalize g / G * P + g % G % P = c at hgi
    have hoff := pool_offset_lt hP hdvd (c := 0) hp
    rw [Nat.zero_mod, Nat.add_zero] at hoff
    have hle : p * P ≤ g := by rw [← hgi]; unfold global_index; omega
    have hdiv : p * P / P = p := Nat.mul_div_cancel p hP
    obtain ⟨e₀, he₀, hth, hf⟩ := hdone (p * P) hoff
    rcases hs.sound e₀ he₀ with ⟨hge, -, -⟩ | ⟨-, c', -, hc', -, hd⟩
    · rw [hth] at hge; omega
    · rw [hth, hdiv] at hc' hd
      rw [hf] at hd
      have hge : ¬ global_index P G p c' < total_work_size kp := of_decide_eq_false hd.symm
      have hcc : c < c' := by
        by_contra hcon
        have := (global_index_strictMono hP hdvd hp).monotone (Nat.le_of_not_lt hcon)
        rw [hgi] at this
        omega
      obtain ⟨e, he, -, -, hwr, hw⟩ := hs.complete p c
        (by rw [counter_fresh]; exact Nat.zero_le c) (lt_trans hcc hc')
      rw [hgi] at hwr hw
      exact mem_validated.mpr ⟨e, he, by rw [hw]; exact decide_eq_true hg, hwr⟩

theorem get_next_work_complete_witness :
    0 < 4 ∧ 0 < 8 ∧ 4 ∣ 8 ∧ (∀ t ∈ scenario_calls, t < 8) ∧
    ∃ claims final, run scenario_tile 4 8 (fresh_pools (8 / 4)) scenario_calls
        = some (claims, final) ∧
      (∀ t, t < 8 → ∃ e ∈ claims, e.thread_index = t ∧ e.has_work = false) ∧
      ∀ g, g ∈ validated claims ↔ g < 16 := by
  refine ⟨by decide, by decide, by decide, by decide, ?_⟩
  obtain ⟨claims, final, hrun, h⟩ :=
    get_next_work_complete scenario_tile 4 8 scenario_calls (by decide) (by decide) (by decide)
      (by decide)
  have hdone : ∀ t, t < 8 → ∃ e ∈ claims, e.thread_index = t ∧ e.has_work = false := by
    have hval : run scenario_tile 4 8 (fresh_pools (8 / 4)) scenario_calls = some
        ([⟨0, true, some 0⟩, ⟨1, true, some 1⟩, ⟨2, true, some 2⟩, ⟨3, true, some 3⟩,
          ⟨4, true, some 4⟩, ⟨5, true, some 5⟩, ⟨6, true, some 6⟩, ⟨7, true, some 7⟩,
          ⟨0, true, some 8⟩, ⟨1, true, some 9⟩, ⟨2, true, some 10⟩, ⟨3, true, some 11⟩,
          ⟨4, true, some 12⟩, ⟨5, true, some 13⟩, ⟨6, true, some 14⟩, ⟨7, true, some 15⟩,
          ⟨0, false, some 16⟩, ⟨1, false, some 17⟩, ⟨2, false, some 18⟩, ⟨3, false, some 19⟩,
          ⟨4, false, some 20⟩, ⟨5, false, some 21⟩, ⟨6, false, some 22⟩, ⟨7, false, some 23⟩],
          [12, 12]) := by decide
    rw [hval] at hrun
    obtain ⟨rfl, -⟩ := Prod.mk.inj (Option.some.inj hrun)
    decide
  exact ⟨claims, final, hrun, hdone, h hdone⟩

/-- C4 (early exit). For every state of the counter array and every
`thread_index ≥ T`, `T = w * h * num_samples`, `get_next_work` returns `false`,
stores nothing and leaves the counter array as it was (no fetch-and-increment
takes place). -/
theorem get_next_work_early_exit (kp : KernelSplitParams) (P G : Nat) (work_pools : List Nat)
    (thread_index : Nat) (ht : kp.w * kp.h * kp.num_samples ≤ thread_index) :
    get_next_work kp P G work_pools thread_index = some ⟨false, none, work_pools⟩ :=
  get_next_work_early ht

theorem get_next_work_early_exit_witness :
    scenario_tile.w * scenario_tile.h * scenario_tile.num_samples = 16 ∧
    get_next_work scenario_tile 4 24 [3, 1, 0, 0, 0, 0] 20 = some ⟨false, none, [3, 1, 0, 0, 0, 0]⟩ :=
  ⟨by decide, get_next_work_early_exit scenario_tile 4 24 [3, 1, 0, 0, 0, 0] 20 (by decide)⟩

/-! ## The pixel mapping -/

section Pixel

variable {kp : KernelSplitParams}

theorem get_work_pixel_eq (hw : 0 < kp.w) (hh : 0 < kp.h) (i : Nat) :
    get_work_pixel kp i =
      some (kp.x + i % (kp.w * kp.h) % kp.w, kp.y + i % (kp.w * kp.h) / kp.w,
        kp.start_sample + i / (kp.w * kp.h)) := by
  have htp : kp.w * kp.h ≠ 0 := Nat.mul_ne_zero (by omega) (by omega)
  have hw' : kp.w ≠ 0 := by omega
  have h1 : ∀ n k : Nat, n - n / k * k = n % k := by
    intro n k
    rw [Nat.mod_def, Nat.mul_comm]
  simp only [get_work_pixel, htp, hw', if_false, h1]

theorem pixel_offset_inj {w a b : Nat} (h1 : a % w = b % w) (h2 : a / w = b / w) : a = b := by
  rw [← Nat.div_add_mod a w, ← Nat.div_add_mod b w, h1, h2]

theorem div_mod_of_lt {n a b : Nat} (ha : a < n) :
    (b * n + a) / n = b ∧ (b * n + a) % n = a := by
  have hn : 0 < n := by omega
  constructor
  · rw [Nat.add_comm, Nat.add_mul_div_right _ _ hn, Nat.div_eq_of_lt ha, Nat.zero_add]
  · rw [Nat.add_comm, Nat.add_mul_mod_self_right, Nat.mod_eq_of_lt ha]

theorem row_offset_lt {w h a b : Nat} (ha : a < w) (hb : b < h) : b * w + a < w * h := by
  have h1 : (b + 1) * w ≤ h * w := Nat.mul_le_mul_right w hb
  rw [Nat.add_mul, Nat.one_mul] at h1
  rw [Nat.mul_comm w h]
  omega

end Pixel

/-- C5 (bijective mapping). For a tile with `w > 0`, `h > 0` (any
`num_samples`, exact arithmetic), `get_work_pixel` restricted to the indices
of `[0, w*h*num_samples)` is a bijection onto the triples `(x, y, sample)`
with `origin_x ≤ x < origin_x + w`, `origin_y ≤ y < origin_y + h`,
`start_sample ≤ sample < start_sample + num_samples`: every result lies in
that set, the mapping is injective, and every triple of the set is the image
of some index. -/
theorem get_work_pixel_bijective (kp : KernelSplitParams) (hw : 0 < kp.w) (hh : 0 < kp.h) :
    (∀ i, i < kp.w * kp.h * kp.num_samples →
      ∃ x y s, get_work_pixel kp i = some (x, y, s) ∧
        kp.x ≤ x ∧ x < kp.x + kp.w ∧ kp.y ≤ y ∧ y < kp.y + kp.h ∧
        kp.start_sample ≤ s ∧ s < kp.start_sample + kp.num_samples) ∧
    (∀ i j, i < kp.w * kp.h * kp.num_samples → j < kp.w * kp.h * kp.num_samples →
      get_work_pixel kp i = get_work_pixel kp j → i = j) ∧
    (∀ x y s, kp.x ≤ x → x < kp.x + kp.w → kp.y ≤ y → y < kp.y + kp.h →
      kp.start_sample ≤ s → s < kp.start_sample + kp.num_samples →
      ∃ i, i < kp.w * kp.h * kp.num_samples ∧ get_work_pixel kp i = some (x, y, s)) := by
  have htp : 0 < kp.w * kp.h := Nat.mul_pos hw hh
  refine ⟨?_, ?_, ?_⟩
  · intro i hi
    refine ⟨_, _, _, get_work_pixel_eq hw hh i, Nat.le_add_right _ _, ?_, Nat.le_add_right _ _,
      ?_, Nat.le_add_right _ _, ?_⟩
    · exact Nat.add_lt_add_left (Nat.mod_lt _ hw) _
    · exact Nat.add_lt_add_left (Nat.div_lt_of_lt_mul (Nat.mod_lt _ htp)) _
    · exact Nat.add_lt_add_left (Nat.div_lt_of_lt_mul hi) _
  · intro i j _ _ h
    rw [get_work_pixel_eq hw hh i, get_work_pixel_eq hw hh j] at h
    obtain ⟨hx, hrest⟩ := Prod.mk.inj (Option.some.inj h)
    obtain ⟨hy, hs⟩ := Prod.mk.inj hrest
    exact pixel_offset_inj
      (pixel_offset_inj (Nat.add_left_cancel hx) (Nat.add_left_cancel hy))
      (Nat.add_left_cancel hs)
  · intro x y s hx1 hx2 hy1 hy2 hs1 hs2
    have ha : x - kp.x < kp.w := by omega
    have hb : y - kp.y < kp.h := by omega
    have hc : s - kp.start_sample < kp.num_samples := by omega
    have hpix := row_offset_lt ha hb
    obtain ⟨hd1, hm1⟩ := div_mod_of_lt (b := s - kp.start_sample) hpix
    obtain ⟨hd2, hm2⟩ := div_mod_of_lt (b := y - kp.y) ha
    refine ⟨(s - kp.start_sample) * (kp.w * kp.h) + ((y - kp.y) * kp.w + (x - kp.x)), ?_, ?_⟩
    · have h1 : (s - kp.start_sample + 1) * (kp.w * kp.h) ≤ kp.num_samples * (kp.w * kp.h) :=
        Nat.mul_le_mul_right _ hc
      rw [Nat.add_mul, Nat.one_mul] at h1
      rw [Nat.mul_comm (kp.w * kp.h) kp.num_samples]
      omega
    · rw [get_work_pixel_eq hw hh, hd1, hm1, hd2, hm2]
      congr 1
      refine Prod.ext ?_ (Prod.ext ?_ ?_) <;> simp only <;> omega

theorem get_work_pixel_bijective_witness :
    0 < scenario_tile.w ∧ 0 < scenario_tile.h ∧
    (∀ i, i < scenario_tile.w * scenario_tile.h * scenario_tile.num_samples →
      ∃ x y s, get_work_pixel scenario_tile i = some (x, y, s) ∧
        scenario_tile.x ≤ x ∧ x < scenario_tile.x + scenario_tile.w ∧
        scenario_tile.y ≤ y ∧ y < scenario_tile.y + scenario_tile.h ∧
        scenario_tile.start_sample ≤ s ∧
        s < scenario_tile.start_sample + scenario_tile.num_samples) ∧
    (∀ i j, i < scenario_tile.w * scenario_tile.h * scenario_tile.num_samples →
      j < scenario_tile.w * scenario_tile.h * scenario_tile.num_samples →
      get_work_pixel scenario_tile i = get_work_pixel scenario_tile j → i = j) ∧
    (∀ x y s, scenario_tile.x ≤ x → x < scenario_tile.x + scenario_tile.w →
      scenario_tile.y ≤ y → y < scenario_tile.y + scenario_tile.h →
      scenario_tile.start_sample ≤ s →
      s < scenario_tile.start_sample + scenario_tile.num_samples →
      ∃ i, i < scenario_tile.w * scenario_tile.h * scenario_tile.num_samples ∧
        get_work_pixel scenario_tile i = some (x, y, s)) :=
  ⟨by decide, by decide, get_work_pixel_bijective scenario_tile (by decide) (by decide)⟩

/-- C10 (pool exhaustion signal). In a run from zeroed counters with exact
arithmetic, `G` a positive multiple of `P > 0` and callers with
`thread_index < G`: when a call by a thread of pool `p` reaches the counter
(`thread_index < T`) and returns `false`, every index `g < T` with
`(g mod G) / P = p` has already been returned with `true` by an earlier call
of pool `p`, and every later call of pool `p` also returns `false`. -/
theorem pool_exhausted (kp : KernelSplitParams) (P G : Nat) (before : List Nat)
    (thread_index : Nat) (after : List Nat) (hP : 0 < P) (hG : 0 < G) (hdvd : P ∣ G)
    (hcalls : ∀ t ∈ before ++ thread_index :: after, t < G)
    (ht : thread_index < kp.w * kp.h * kp.num_samples) :
    ∃ earlier e later final,
      run kp P G (fresh_pools (G / P)) (before ++ thread_index :: after)
        = some (earlier ++ e :: later, final) ∧
      earlier.length = before.length ∧ e.thread_index = thread_index ∧
      e.global_work_index ≠ none ∧
      (e.has_work = false →
        (∀ g, g < kp.w * kp.h * kp.num_samples → g % G / P = thread_index / P →
          ∃ e' ∈ earlier, e'.thread_index / P = thread_index / P ∧ e'.has_work = true ∧
            e'.global_work_index = some g) ∧
        (∀ e' ∈ later, e'.thread_index / P = thread_index / P → e'.has_work = false)) := by
  have hpl : ∀ t ∈ before ++ thread_index :: after, t / P < G / P :=
    fun t h => pool_lt_of_lt hdvd (hcalls t h)
  have hp : thread_index / P < G / P := hpl _ (by simp)
  obtain ⟨earlier, mid, hrun₁, hs₁⟩ := run_spec kp P G hP before
    (fresh_pools (G / P))
    (fun t h => by rw [fresh_pools_length]; exact hpl t (List.mem_append_left _ h))
  have hmid : mid.length = G / P := by rw [hs₁.length_eq, fresh_pools_length]
  have hset : (mid.set (thread_index / P) (counter mid (thread_index / P) + 1)).length = G / P := by
    rw [List.length_set, hmid]
  obtain ⟨later, final, hrun₃, hs₃⟩ := run_spec kp P G hP after
    (mid.set (thread_index / P) (counter mid (thread_index / P) + 1))
    (fun t h => by
      rw [hset]; exact hpl t (List.mem_append_right _ (List.mem_cons_of_mem _ h)))
  refine ⟨earlier, ⟨thread_index,
    decide (global_index P G (thread_index / P) (counter mid (thread_index / P))
      < total_work_size kp),
    some (global_index P G (thread_index / P) (counter mid (thread_index / P)))⟩,
    later, final, ?_, ?_, rfl, by simp, ?_⟩
  · rw [run_append, hrun₁]
    simp only [run, get_next_work_claim hP ht (by rw [hmid]; exact hp), hrun₃]
  · have := congrArg List.length hs₁.threads
    simpa using this
  · intro hfalse
    have hge : ¬ global_index P G (thread_index / P) (counter mid (thread_index / P))
        < total_work_size kp := of_decide_eq_false hfalse
    constructor
    · intro g hg hgp
      obtain ⟨-, hgi⟩ := global_index_surj hP hG hdvd g
      rw [hgp] at hgi
      generalize g / G * P + g % G % P = c at hgi
      have hcc : c < counter mid (thread_index / P) := by
        by_contra hcon
        have := (global_index_strictMono hP hdvd hp).monotone (Nat.le_of_not_lt hcon)
        rw [hgi] at this
        change g < total_work_size kp at hg
        omega
      obtain ⟨e', he', hep, -, hwr, hw⟩ := hs₁.complete (thread_index / P) c
        (by rw [counter_fresh]; exact Nat.zero_le c) hcc
      rw [hgi] at hwr hw
      exact ⟨e', he', hep, by rw [hw]; exact decide_eq_true hg, hwr⟩
    · intro e' he' hep
      rcases hs₃.sound e' he' with ⟨-, hf, -⟩ | ⟨-, c, hc, -, -, hd⟩
      · exact hf
      · rw [hep, counter_set _ _ _ _ (by rw [hmid]; exact hp), if_pos rfl] at hc
        rw [hd, hep]
        have := global_index_lt hP hdvd hp hc
        exact decide_eq_false (by omega)

theorem pool_exhausted_witness :
    0 < 4 ∧ 0 < 8 ∧ 4 ∣ 8 ∧
    (∀ t ∈ [0, 1, 2, 3, 4, 5, 6, 7, 0, 1, 2, 3, 4, 5, 6, 7] ++ 0 :: [1, 2, 3, 4, 5, 6, 7],
      t < 8) ∧
    0 < scenario_tile.w * scenario_tile.h * scenario_tile.num_samples ∧
    ∃ earlier e later final,
      run scenario_tile 4 8 (fresh_pools (8 / 4))
          ([0, 1, 2, 3, 4, 5, 6, 7, 0, 1, 2, 3, 4, 5, 6, 7] ++ 0 :: [1, 2, 3, 4, 5, 6, 7])
        = some (earlier ++ e :: later, final) ∧
      earlier.length = [0, 1, 2, 3, 4, 5, 6, 7, 0, 1, 2, 3, 4, 5, 6, 7].length ∧
      e.thread_index = 0 ∧ e.global_work_index ≠ none ∧ e.has_work = false ∧
      (∀ g, g < scenario_tile.w * scenario_tile.h * scenario_tile.num_samples →
        g % 8 / 4 = 0 / 4 →
        ∃ e' ∈ earlier, e'.thread_index / 4 = 0 / 4 ∧ e'.has_work = true ∧
          e'.global_work_index = some g) ∧
      (∀ e' ∈ later, e'.thread_index / 4 = 0 / 4 → e'.has_work = false) := by
  refine ⟨by decide, by decide, by decide, by decide, by decide, ?_⟩
  obtain ⟨earlier, e, later, final, hrun, hlen, hth, hne, himp⟩ :=
    pool_exhausted scenario_tile 4 8 [0, 1, 2, 3, 4, 5, 6, 7, 0, 1, 2, 3, 4, 5, 6, 7] 0
      [1, 2, 3, 4, 5, 6, 7] (by decide) (by decide) (by decide) (by decide) (by decide)
  have hval : run scenario_tile 4 8 (fresh_pools (8 / 4))
      ([0, 1, 2, 3, 4, 5, 6, 7, 0, 1, 2, 3, 4, 5, 6, 7] ++ 0 :: [1, 2, 3, 4, 5, 6, 7]) = some
      ([⟨0, true, some 0⟩, ⟨1, true, some 1⟩, ⟨2, true, some 2⟩, ⟨3, true, some 3⟩,
        ⟨4, true, some 4⟩, ⟨5, true, some 5⟩, ⟨6, true, some 6⟩, ⟨7, true, some 7⟩,
        ⟨0, true, some 8⟩, ⟨1, true, some 9⟩, ⟨2, true, some 10⟩, ⟨3, true, some 11⟩,
        ⟨4, true, some 12⟩, ⟨5, true, some 13⟩, ⟨6, true, some 14⟩, ⟨7, true, some 15⟩] ++
        ⟨0, false, some 16⟩ ::
        [⟨1, false, some 17⟩, ⟨2, false, some 18⟩, ⟨3, false, some 19⟩,
        ⟨4, false, some 20⟩, ⟨5, false, some 21⟩, ⟨6, false, some 22⟩, ⟨7, false, some 23⟩],
        [12, 12]) := by decide
  have hfalse : e.has_work = false := by
    rw [hval] at hrun
    obtain ⟨hl, -⟩ := Prod.mk.inj (Option.some.inj hrun)
    obtain ⟨-, h2⟩ := List.append_inj hl (by rw [hlen]; rfl)
    obtain ⟨h3, -⟩ := List.cons.inj h2
    rw [← h3]
  exact ⟨earlier, e, later, final, hrun, hlen, hth, hne, hfalse, himp hfalse⟩

/-! ## Rounds, order and bounds -/

theorem div_mod_lex {n a b : Nat} (h : a < b) :
    a / n < b / n ∨ (a / n = b / n ∧ a % n < b % n) := by
  have ha := Nat.div_add_mod a n
  have hb := Nat.div_add_mod b n
  rcases (Nat.div_le_div_right (c := n) h.le).eq_or_lt with heq | hlt
  · right
    refine ⟨heq, ?_⟩
    rw [heq] at ha
    omega
  · exact Or.inl hlt

theorem global_index_add_pool_size (P G pool : Nat) (hP : 0 < P) (c : Nat) :
    global_index P G pool (c + P) = global_index P G pool c + G := by
  unfold global_index
  rw [Nat.add_div_right c hP, Nat.add_mod_right, Nat.succ_mul]
  omega

/-- C14, as stated, fails. With `P = 4`, `G = 8` and a tile of `T = 6` work
units, thread 7 satisfies `T ≤ thread_index < G` and is stopped by the early
exit, yet counter value 0 of its pool remaps to the valid index 4, which the
code hands to thread 4 of the same pool. -/
theorem discarded_thread_pool_has_work :
    0 < 4 ∧ 0 < 8 ∧ 4 ∣ 8 ∧ small_tile.w * small_tile.h * small_tile.num_samples ≤ 7 ∧ 7 < 8 ∧
    ¬ (∀ c, small_tile.w * small_tile.h * small_tile.num_samples
        ≤ (c / 4) * 8 + (7 / 4) * 4 + (c % 4)) ∧
    global_index 4 8 (7 / 4) 0 < small_tile.w * small_tile.h * small_tile.num_samples ∧
    get_next_work small_tile 4 8 [0, 0] 7 = some ⟨false, none, [0, 0]⟩ ∧
    get_next_work small_tile 4 8 [0, 0] 4 = some ⟨true, some 4, [0, 1]⟩ ∧
    get_next_work_u32 small_tile 4 8 [0, 0] 7 = some ⟨false, none, [0, 0]⟩ ∧
    get_next_work_u32 small_tile 4 8 [0, 0] 4 = some ⟨true, some 4, [0, 1]⟩ := by
  refine ⟨by decide, by decide, by decide, by decide, by decide, ?_, by decide, by decide,
    by decide, by decide, by decide⟩
  intro h
  exact absurd (h 0) (by decide)

/-- C17 (pool index in bounds). For `P > 0`, `G` a positive multiple of `P` and
`thread_index < G`, the pool index `thread_index / P` is `< G / P`, the length
of the counter array; so under the asserted preconditions the counter access
of `get_next_work` stays inside the array and the call returns. -/
theorem pool_in_bounds (kp : KernelSplitParams) (P G : Nat) (work_pools : List Nat)
    (thread_index : Nat) (hP : 0 < P) (_hG : 0 < G) (hdvd : P ∣ G)
    (hlen : work_pools.length = G / P) (ht : thread_index < G) :
    thread_index / P < G / P ∧ thread_index / P < work_pools.length ∧
    (∃ c, work_pools[thread_index / P]? = some c) ∧
    ∃ r, get_next_work kp P G work_pools thread_index = some r := by
  have hp : thread_index / P < G / P := pool_lt_of_lt hdvd ht
  have hp' : thread_index / P < work_pools.length := by rw [hlen]; exact hp
  refine ⟨hp, hp', ⟨_, get_eq_counter hp'⟩, ?_⟩
  by_cases ht' : thread_index < total_work_size kp
  · exact ⟨_, get_next_work_claim hP ht' hp'⟩
  · exact ⟨_, get_next_work_early (Nat.le_of_not_lt ht')⟩

theorem pool_in_bounds_witness :
    0 < 4 ∧ 0 < 8 ∧ 4 ∣ 8 ∧ [2, 6].length = 8 / 4 ∧ 7 < 8 ∧
    7 / 4 < 8 / 4 ∧ 7 / 4 < [2, 6].length ∧
    (∃ c, [2, 6][7 / 4]? = some c) ∧
    ∃ r, get_next_work scenario_tile 4 8 [2, 6] 7 = some r :=
  ⟨by decide, by decide, by decide, by decide, by decide,
    pool_in_bounds scenario_tile 4 8 [2, 6] 7 (by decide) (by decide) (by decide) (by decide)
      (by decide)⟩

theorem length_le_of_nodup_of_lt {l : List Nat} {n : Nat} (hnd : l.Nodup)
    (hlt : ∀ a ∈ l, a < n) : l.length ≤ n := by
  have hsub : l.toFinset ⊆ Finset.range n := by
    intro a ha
    exact Finset.mem_range.mpr (hlt a (List.mem_toFinset.mp ha))
  have hcard := Finset.card_le_card hsub
  rw [List.toFinset_card_of_nodup hnd, Finset.card_range] at hcard
  exact hcard

theorem length_filter_true_le (claims : List Claim)
    (hsome : ∀ e ∈ claims, e.has_work = true → ∃ g, e.global_work_index = some g) :
    (claims.filter fun e => e.has_work).length = (validated claims).length := by
  induction claims with
  | nil => rfl
  | cons e es ih =>
    have ih' := ih (fun a ha => hsome a (List.mem_cons_of_mem _ ha))
    rw [validated_cons]
    by_cases hw : e.has_work = true
    · obtain ⟨g, hg⟩ := hsome e (List.mem_cons_self _ _) hw
      rw [List.filter_cons_of_pos hw]
      simp [hw, hg, ih']
    · rw [List.filter_cons_of_neg hw]
      simp [hw, ih']

theorem false_threads_nodup {claims : List Claim} (hstop : stops_after_false claims) :
    ((claims.filter fun e => !e.has_work).map Claim.thread_index).Nodup := by
  unfold stops_after_false at hstop
  have h1 := List.Pairwise.filter (fun e : Claim => !e.has_work) hstop
  rw [List.Nodup, List.pairwise_map]
  refine List.Pairwise.imp_of_mem ?_ h1
  intro a b ha _ hab
  have hfa : a.has_work = false := by
    have := (List.mem_filter.mp ha).2
    simpa using this
  exact hab hfa

/-- C19 (the pass is finite). With counters initially zero, exact arithmetic,
`G` a positive multiple of `P > 0` and threads of `[0, G)` that each stop
calling after their first `false` result, every run contains at most `T` calls
of `get_next_work` that return `true` and at most `G` calls that return
`false`, so at most `T + G` calls in all (`T = w * h * num_samples`). -/
theorem pass_is_finite (kp : KernelSplitParams) (P G : Nat) (calls : List Nat)
    (hP : 0 < P) (_hG : 0 < G) (hdvd : P ∣ G) (hcalls : ∀ t ∈ calls, t < G) :
    ∃ claims final, run kp P G (fresh_pools (G / P)) calls = some (claims, final) ∧
      claims.length = calls.length ∧
      (stops_after_false claims →
        (claims.filter fun e => e.has_work).length ≤ kp.w * kp.h * kp.num_samples ∧
        (claims.filter fun e => !e.has_work).length ≤ G ∧
        calls.length ≤ kp.w * kp.h * kp.num_samples + G) := by
  obtain ⟨claims, final, hrun, hs⟩ := run_spec kp P G hP calls (fresh_pools (G / P))
    (fun t ht => by rw [fresh_pools_length]; exact pool_lt_of_lt hdvd (hcalls t ht))
  have hlen : claims.length = calls.length := by
    have := congrArg List.length hs.threads
    simpa using this
  refine ⟨claims, final, hrun, hlen, fun hstop => ?_⟩
  have htrue : (claims.filter fun e => e.has_work).length ≤ total_work_size kp := by
    rw [length_filter_true_le claims ?_]
    · refine length_le_of_nodup_of_lt
        (run_validated_nodup hP hdvd calls _ claims final (fresh_pools_length _) hcalls hrun) ?_
      intro g hg
      obtain ⟨e, he, hw, hgi⟩ := mem_validated.mp hg
      rcases hs.sound e he with ⟨-, hf, -⟩ | ⟨-, c, -, -, hst, hd⟩
      · rw [hf] at hw; cases hw
      · rw [hst] at hgi
        rw [← Option.some.inj hgi]
        rw [hw] at hd
        exact of_decide_eq_true hd.symm
    · intro e he hw
      rcases hs.sound e he with ⟨-, hf, -⟩ | ⟨-, c, -, -, hst, -⟩
      · rw [hf] at hw; cases hw
      · exact ⟨_, hst⟩
  have hfalse : (claims.filter fun e => !e.has_work).length ≤ G := by
    have hnd := false_threads_nodup hstop
    have := length_le_of_nodup_of_lt hnd (n := G) (by
      intro t ht
      obtain ⟨e, he, rfl⟩ := List.mem_map.mp ht
      apply hcalls
      rw [← hs.threads]
      exact List.mem_map_of_mem _ (List.mem_filter.mp he).1)
    simpa using this
  refine ⟨htrue, hfalse, ?_⟩
  have hsplit := List.length_eq_length_filter_add (l := claims) (fun e => e.has_work)
  rw [← hlen, hsplit]
  exact Nat.add_le_add htrue hfalse

theorem pass_is_finite_witness :
    0 < 4 ∧ 0 < 8 ∧ 4 ∣ 8 ∧ (∀ t ∈ scenario_calls, t < 8) ∧
    ∃ claims final, run scenario_tile 4 8 (fresh_pools (8 / 4)) scenario_calls
        = some (claims, final) ∧
      claims.length = scenario_calls.length ∧ stops_after_false claims ∧
      (claims.filter fun e => e.has_work).length
        ≤ scenario_tile.w * scenario_tile.h * scenario_tile.num_samples ∧
      (claims.filter fun e => !e.has_work).length ≤ 8 ∧
      scenario_calls.length
        ≤ scenario_tile.w * scenario_tile.h * scenario_tile.num_samples + 8 := by
  refine ⟨by decide, by decide, by decide, by decide, ?_⟩
  obtain ⟨claims, final, hrun, hlen, h⟩ :=
    pass_is_finite scenario_tile 4 8 scenario_calls (by decide) (by decide) (by decide)
      (by decide)
  have hstop : stops_after_false claims := by
    have hval : run scenario_tile 4 8 (fresh_pools (8 / 4)) scenario_calls = some
        ([⟨0, true, some 0⟩, ⟨1, true, some 1⟩, ⟨2, true, some 2⟩, ⟨3, true, some 3⟩,
          ⟨4, true, some 4⟩, ⟨5, true, some 5⟩, ⟨6, true, some 6⟩, ⟨7, true, some 7⟩,
          ⟨0, true, some 8⟩, ⟨1, true, some 9⟩, ⟨2, true, some 10⟩, ⟨3, true, some 11⟩,
          ⟨4, true, some 12⟩, ⟨5, true, some 13⟩, ⟨6, true, some 14⟩, ⟨7, true, some 15⟩,
          ⟨0, false, some 16⟩, ⟨1, false, some 17⟩, ⟨2, false, some 18⟩, ⟨3, false, some 19⟩,
          ⟨4, false, some 20⟩, ⟨5, false, some 21⟩, ⟨6, false, some 22⟩, ⟨7, false, some 23⟩],
          [12, 12]) := by decide
    rw [hval] at hrun
    obtain ⟨rfl, -⟩ := Prod.mk.inj (Option.some.inj hrun)
    unfold stops_after_false
    decide
  exact ⟨claims, final, hrun, hlen, hstop, h hstop⟩

/-! ## Arithmetic of 32 bits -/

/-- C15 (unchecked overflow of the work size). With `uint` arithmetic modulo
`2 ^ 32` the work size is not checked for overflow: for the tile `w = 65536`,
`h = 65536`, `num_samples = 1`, whose true work size `2 ^ 32` is positive, the
computed `total_work_size` is 0 and `get_next_work` returns `false` to thread 0
on its first call with all counters zero, and to every other call, without
touching a counter: work that exists is never handed out. -/
theorem get_next_work_u32_overflow :
    0 < overflow_tile.w * overflow_tile.h * overflow_tile.num_samples ∧
    2 ^ 32 ≤ overflow_tile.w * overflow_tile.h * overflow_tile.num_samples ∧
    overflow_tile.w < 2 ^ 32 ∧ overflow_tile.h < 2 ^ 32 ∧
    overflow_tile.num_samples < 2 ^ 32 ∧
    wrap_uint (wrap_uint (overflow_tile.w * overflow_tile.h) * overflow_tile.num_samples) = 0 ∧
    (∀ P G n, get_next_work_u32 overflow_tile P G (fresh_pools n) 0
      = some ⟨false, none, fresh_pools n⟩) ∧
    (∀ P G work_pools thread_index,
      get_next_work_u32 overflow_tile P G work_pools thread_index
        = some ⟨false, none, work_pools⟩) := by
  have h0 : wrap_uint (wrap_uint (overflow_tile.w * overflow_tile.h)
      * overflow_tile.num_samples) = 0 := by decide
  have hall : ∀ P G work_pools thread_index,
      get_next_work_u32 overflow_tile P G work_pools thread_index
        = some ⟨false, none, work_pools⟩ := by
    intro P G work_pools thread_index
    simp only [get_next_work_u32, h0, ge_iff_le, Nat.zero_le, if_true]
  exact ⟨by decide, by decide, by decide, by decide, by decide, h0,
    fun P G n => hall P G _ 0, hall⟩

theorem le_global_index {P G : Nat} (hPG : P ≤ G) (pool c : Nat) :
    c ≤ global_index P G pool c := by
  have h1 : c / P * P ≤ c / P * G := Nat.mul_le_mul_left _ hPG
  have h2 := Nat.div_add_mod' c P
  unfold global_index
  omega

theorem not_both_false_of_stops {claims : List Claim} (hstop : stops_after_false claims)
    {a b : Claim} (ha : a ∈ claims) (hb : b ∈ claims) (hne : a ≠ b)
    (hfa : a.has_work = false) (hfb : b.has_work = false) :
    a.thread_index ≠ b.thread_index := by
  unfold stops_after_false at hstop
  have hsym : claims.Pairwise fun e₁ e₂ : Claim =>
      (e₁.has_work = false → e₁.thread_index ≠ e₂.thread_index) ∨
      (e₂.has_work = false → e₂.thread_index ≠ e₁.thread_index) :=
    hstop.imp (fun h => Or.inl h)
  have hsymm : Symmetric fun e₁ e₂ : Claim =>
      (e₁.has_work = false → e₁.thread_index ≠ e₂.thread_index) ∨
      (e₂.has_work = false → e₂.thread_index ≠ e₁.thread_index) :=
    fun _ _ h => h.symm
  rcases List.Pairwise.forall hsymm hsym ha hb hne with h | h
  · exact h hfa
  · exact fun heq => h hfb heq.symm

/-- In a run of threads that stop after their first `false`, every stored
index is below `total_work_size + global_size`. -/
theorem stored_lt_of_stops (kp : KernelSplitParams) (P G : Nat) (hP : 0 < P) (hdvd : P ∣ G)
    {calls : List Nat} {claims : List Claim} {final : List Nat}
    (hcalls : ∀ t ∈ calls, t < G)
    (hrun : run kp P G (fresh_pools (G / P)) calls = some (claims, final))
    (hstop : stops_after_false claims) :
    ∀ e ∈ claims, ∀ g, e.global_work_index = some g → g < total_work_size kp + G := by
  have hs := run_eq_spec hP
    (fun t ht => by rw [fresh_pools_length]; exact pool_lt_of_lt hdvd (hcalls t ht)) hrun
  intro e he g hg
  have heG : e.thread_index < G := by
    apply hcalls; rw [← hs.threads]; exact List.mem_map_of_mem _ he
  have hp := pool_lt_of_lt hdvd heG
  rcases hs.sound e he with ⟨-, -, hn⟩ | ⟨-, c, -, hc, hst, -⟩
  · rw [hn] at hg; cases hg
  · rw [hst] at hg
    rw [← Option.some.inj hg]
    by_contra hcon
    have hge : total_work_size kp + G ≤ global_index P G (e.thread_index / P) c :=
      Nat.le_of_not_lt hcon
    generalize e.thread_index / P = p at hp hc hge
    have hcP : P ≤ c := by
      by_contra hlt
      have hoff := pool_offset_lt hP hdvd (c := c) hp
      have hd : c / P = 0 := Nat.div_eq_of_lt (Nat.lt_of_not_le hlt)
      unfold global_index at hge
      rw [hd] at hge
      omega
    obtain ⟨c₀, rfl⟩ : ∃ c₀, c = c₀ + P := ⟨c - P, by omega⟩
    rw [global_index_add_pool_size P G p hP] at hge
    have hex : ∀ i : Fin (P + 1), ∃ a ∈ claims, a.thread_index / P = p ∧
        a.global_work_index = some (global_index P G p (c₀ + i.val)) ∧
        a.has_work = false := by
      intro i
      have hi := i.isLt
      obtain ⟨a, ha, hap, -, hwr, hw⟩ := hs.complete p (c₀ + i.val)
        (by rw [counter_fresh]; exact Nat.zero_le _) (by omega)
      refine ⟨a, ha, hap, hwr, ?_⟩
      rw [hw]
      have := (global_index_strictMono hP hdvd hp).monotone (Nat.le_add_right c₀ i.val)
      exact decide_eq_false (by omega)
    choose F hF using hex
    obtain ⟨i, j, hij, hfij⟩ := Fintype.exists_ne_map_eq_of_card_lt
      (fun i : Fin (P + 1) => (⟨(F i).thread_index % P, Nat.mod_lt _ hP⟩ : Fin P)) (by simp)
    have hmod : (F i).thread_index % P = (F j).thread_index % P := by
      simpa using congrArg Fin.val hfij
    have hthr : (F i).thread_index = (F j).thread_index :=
      pixel_offset_inj hmod (by rw [(hF i).2.1, (hF j).2.1])
    have hne : F i ≠ F j := by
      intro heq
      have h1 := (hF i).2.2.1
      rw [heq, (hF j).2.2.1] at h1
      have h2 := (global_index_inj hP hdvd hp hp (Option.some.inj h1)).2
      exact hij (Fin.ext (by omega))
    exact not_both_false_of_stops hstop (hF i).1 (hF j).1 hne (hF i).2.2.2 (hF j).2.2.2 hthr

section Wrap

variable {kp : KernelSplitParams} {P G : Nat}

theorem wrap_uint_of_lt {n : Nat} (h : n < 2 ^ 32) : wrap_uint n = n :=
  Nat.mod_eq_of_lt h

theorem total_work_size_u32 (hT : total_work_size kp < 2 ^ 32) :
    wrap_uint (wrap_uint (kp.w * kp.h) * kp.num_samples) = total_work_size kp := by
  unfold total_work_size at hT ⊢
  by_cases hn : kp.num_samples = 0
  · simp [hn, wrap_uint]
  · have hle : kp.w * kp.h ≤ kp.w * kp.h * kp.num_samples :=
      Nat.le_mul_of_pos_right _ (Nat.pos_of_ne_zero hn)
    rw [wrap_uint_of_lt (lt_of_le_of_lt hle hT), wrap_uint_of_lt hT]

theorem get_next_work_u32_early (hT : total_work_size kp < 2 ^ 32) {pools : List Nat} {t : Nat}
    (h : total_work_size kp ≤ t) :
    get_next_work_u32 kp P G pools t = some ⟨false, none, pools⟩ := by
  simp [get_next_work_u32, total_work_size_u32 hT, h]

theorem get_next_work_u32_claim (hP : 0 < P) (hPG : P ≤ G) (hT : total_work_size kp < 2 ^ 32)
    {pools : List Nat} {t : Nat} (ht : t < total_work_size kp) (hpool : t / P < pools.length)
    (hfit : global_index P G (t / P) (counter pools (t / P)) < 2 ^ 32) :
    get_next_work_u32 kp P G (pools.map wrap_uint) t =
      some ⟨decide (global_index P G (t / P) (counter pools (t / P)) < total_work_size kp),
        some (global_index P G (t / P) (counter pools (t / P))),
        (pools.set (t / P) (counter pools (t / P) + 1)).map wrap_uint⟩ := by
  have hne : P ≠ 0 := by omega
  have hc : counter pools (t / P) < 2 ^ 32 :=
    lt_of_le_of_lt (le_global_index hPG _ _) hfit
  have hget : (pools.map wrap_uint)[t / P]? = some (counter pools (t / P)) := by
    rw [List.getElem?_map, get_eq_counter hpool, Option.map_some', wrap_uint_of_lt hc]
  have hfit' := hfit
  unfold global_index at hfit'
  have h1 : wrap_uint (counter pools (t / P) / P * G) = counter pools (t / P) / P * G :=
    wrap_uint_of_lt (by omega)
  have h2 : wrap_uint (t / P * P) = t / P * P := wrap_uint_of_lt (by omega)
  have h3 : wrap_uint (counter pools (t / P) / P * G + t / P * P)
      = counter pools (t / P) / P * G + t / P * P := wrap_uint_of_lt (by omega)
  have h4 : wrap_uint (counter pools (t / P) / P * G + t / P * P + counter pools (t / P) % P)
      = global_index P G (t / P) (counter pools (t / P)) := wrap_uint_of_lt hfit'
  simp only [get_next_work_u32, total_work_size_u32 hT, ge_iff_le, Nat.not_le.mpr ht, if_false,
    hne, atomic_fetch_and_inc_uint32_wrap, hget, h1, h2, h3, h4, List.map_set]

theorem run_u32_eq_run (hP : 0 < P) (hPG : P ≤ G) (hT : total_work_size kp < 2 ^ 32) :
    ∀ (calls pools : List Nat) (claims : List Claim) (final : List Nat),
    (∀ t ∈ calls, t / P < pools.length) →
    run kp P G pools calls = some (claims, final) →
    (∀ e ∈ claims, ∀ g, e.global_work_index = some g → g < 2 ^ 32) →
    run_u32 kp P G (pools.map wrap_uint) calls = some (claims, final.map wrap_uint) := by
  intro calls
  induction calls with
  | nil =>
    intro pools claims final _ hrun _
    simp only [run] at hrun
    obtain ⟨rfl, rfl⟩ := Prod.mk.inj (Option.some.inj hrun)
    rfl
  | cons t ts ih =>
    intro pools claims final hcalls hrun hfit
    have htp : t / P < pools.length := hcalls t (List.mem_cons_self _ _)
    obtain ⟨r, claims', hstep, hrest, rfl⟩ := run_cons_inv hrun
    have hfit' : ∀ e ∈ claims', ∀ g, e.global_work_index = some g → g < 2 ^ 32 :=
      fun e he => hfit e (List.mem_cons_of_mem _ he)
    by_cases ht : t < total_work_size kp
    · rw [get_next_work_claim hP ht htp] at hstep
      obtain rfl := Option.some.inj hstep
      simp only at hrest hfit ⊢
      have hhead := hfit _ (List.mem_cons_self _ _) _ rfl
      have hih := ih _ claims' final
        (fun u hu => by rw [List.length_set]; exact hcalls u (List.mem_cons_of_mem _ hu))
        hrest hfit'
      simp only [run_u32, get_next_work_u32_claim hP hPG hT ht htp hhead, hih]
    · rw [get_next_work_early (Nat.le_of_not_lt ht)] at hstep
      obtain rfl := Option.some.inj hstep
      simp only at hrest ⊢
      have hih := ih _ claims' final
        (fun u hu => hcalls u (List.mem_cons_of_mem _ hu)) hrest hfit'
      simp only [run_u32, get_next_work_u32_early hT (Nat.le_of_not_lt ht), hih]

theorem fresh_pools_wrap (n : Nat) : (fresh_pools n).map wrap_uint = fresh_pools n := by
  simp [fresh_pools, wrap_uint]

theorem get_next_work_u32_some (kp : KernelSplitParams) (P G : Nat) (hP : 0 < P)
    {pools : List Nat} {t : Nat} (hpool : t / P < pools.length) :
    ∃ r, get_next_work_u32 kp P G pools t = some r ∧ r.work_pools.length = pools.length := by
  have hne : P ≠ 0 := by omega
  unfold get_next_work_u32
  simp only [atomic_fetch_and_inc_uint32_wrap, get_eq_counter hpool, hne, if_false]
  split
  · exact ⟨_, rfl, rfl⟩
  · exact ⟨_, rfl, by simp⟩

theorem run_u32_total (kp : KernelSplitParams) (P G : Nat) (hP : 0 < P) :
    ∀ (calls pools : List Nat),
    (∀ t ∈ calls, t / P < pools.length) →
    ∃ claims final, run_u32 kp P G pools calls = some (claims, final) := by
  intro calls
  induction calls with
  | nil => exact fun pools _ => ⟨[], pools, rfl⟩
  | cons t ts ih =>
    intro pools hcalls
    obtain ⟨r, hr, hlen⟩ := get_next_work_u32_some kp P G hP
      (hcalls t (List.mem_cons_self _ _))
    obtain ⟨claims, final, hrun⟩ := ih r.work_pools
      (fun u hu => by rw [hlen]; exact hcalls u (List.mem_cons_of_mem _ hu))
    exact ⟨⟨t, r.has_work, r.global_work_index⟩ :: claims, final,
      by simp only [run_u32, hr, hrun]⟩

theorem run_u32_append (calls₁ calls₂ pools : List Nat) :
    run_u32 kp P G pools (calls₁ ++ calls₂) =
      match run_u32 kp P G pools calls₁ with
      | none => none
      | some (claims₁, mid) =>
        match run_u32 kp P G mid calls₂ with
        | none => none
        | some (claims₂, final) => some (claims₁ ++ claims₂, final) := by
  induction calls₁ generalizing pools with
  | nil =>
    simp only [List.nil_append, run_u32]
    cases run_u32 kp P G pools calls₂ with
    | none => rfl
    | some r => rfl
  | cons t ts ih =>
    rw [List.cons_append, run_u32, run_u32]
    cases get_next_work_u32 kp P G pools t with
    | none => rfl
    | some r =>
      simp only
      rw [ih r.work_pools]
      cases run_u32 kp P G r.work_pools ts with
      | none => rfl
      | some r₁ =>
        obtain ⟨claims₁, mid⟩ := r₁
        simp only
        cases run_u32 kp P G mid calls₂ with
        | none => rfl
        | some r₂ => rfl

theorem run_u32_single {t : Nat} {pools : List Nat} {claims : List Claim} {final : List Nat}
    (hrun : run_u32 kp P G pools [t] = some (claims, final)) :
    ∃ hw g, claims = [⟨t, hw, g⟩] := by
  rw [run_u32] at hrun
  cases hstep : get_next_work_u32 kp P G pools t with
  | none => rw [hstep] at hrun; simp at hrun
  | some r =>
    rw [hstep] at hrun
    simp only [run_u32] at hrun
    obtain ⟨rfl, -⟩ := Prod.mk.inj (Option.some.inj hrun)
    exact ⟨_, _, rfl⟩

theorem run_single {t : Nat} {pools : List Nat} {claims : List Claim} {final : List Nat}
    (hrun : run kp P G pools [t] = some (claims, final)) :
    ∃ hw g, claims = [⟨t, hw, g⟩] := by
  obtain ⟨r, claims', -, hrest, rfl⟩ := run_cons_inv hrun
  simp only [run] at hrest
  obtain ⟨rfl, -⟩ := Prod.mk.inj (Option.some.inj hrest)
  exact ⟨_, _, rfl⟩

theorem run_u32_exact (hP : 0 < P) (hG : 0 < G) (hdvd : P ∣ G)
    (hbound : total_work_size kp + G ≤ 2 ^ 32) :
    ∀ calls : List Nat, (∀ t ∈ calls, t < G) →
    ∀ (claims : List Claim) (final32 : List Nat),
    run_u32 kp P G (fresh_pools (G / P)) calls = some (claims, final32) →
    stops_after_false claims →
    ∃ final, run kp P G (fresh_pools (G / P)) calls = some (claims, final) ∧
      final32 = final.map wrap_uint := by
  have hPG : P ≤ G := Nat.le_of_dvd hG hdvd
  have hT : total_work_size kp < 2 ^ 32 := by omega
  intro calls
  induction calls using List.reverseRecOn with
  | nil =>
    intro _ claims final32 hrun _
    simp only [run_u32] at hrun
    obtain ⟨rfl, rfl⟩ := Prod.mk.inj (Option.some.inj hrun)
    exact ⟨fresh_pools (G / P), rfl, (fresh_pools_wrap _).symm⟩
  | append_singleton xs t ih =>
    intro hcalls claims final32 hrun hstop
    have hxs : ∀ u ∈ xs, u < G := fun u hu => hcalls u (List.mem_append_left _ hu)
    have hpl : ∀ u ∈ xs ++ [t], u / P < (fresh_pools (G / P)).length :=
      fun u hu => by rw [fresh_pools_length]; exact pool_lt_of_lt hdvd (hcalls u hu)
    have hrun' := hrun
    rw [run_u32_append] at hrun'
    cases h₁ : run_u32 kp P G (fresh_pools (G / P)) xs with
    | none => rw [h₁] at hrun'; simp at hrun'
    | some res₁ =>
      obtain ⟨c₁, mid32⟩ := res₁
      rw [h₁] at hrun'
      simp only at hrun'
      cases h₂ : run_u32 kp P G mid32 [t] with
      | none => rw [h₂] at hrun'; simp at hrun'
      | some res₂ =>
        obtain ⟨c₂, f32⟩ := res₂
        rw [h₂] at hrun'
        simp only at hrun'
        obtain ⟨rfl, rfl⟩ := Prod.mk.inj (Option.some.inj hrun')
        unfold stops_after_false at hstop
        obtain ⟨hst₁, -, hcross⟩ := List.pairwise_append.mp hstop
        obtain ⟨mid, hmid, -⟩ := ih hxs c₁ mid32 h₁ hst₁
        obtain ⟨claimsE, finalE, hrunE, -⟩ := run_spec kp P G hP (xs ++ [t])
          (fresh_pools (G / P)) hpl
        have hrunE' := hrunE
        rw [run_append, hmid] at hrunE'
        simp only at hrunE'
        cases h₃ : run kp P G mid [t] with
        | none => rw [h₃] at hrunE'; simp at hrunE'
        | some res₃ =>
          obtain ⟨c₃, f₃⟩ := res₃
          rw [h₃] at hrunE'
          simp only at hrunE'
          obtain ⟨rfl, rfl⟩ := Prod.mk.inj (Option.some.inj hrunE')
          obtain ⟨hw₂, g₂, rfl⟩ := run_u32_single h₂
          obtain ⟨hw₃, g₃, rfl⟩ := run_single h₃
          have hstopE : stops_after_false (c₁ ++ [⟨t, hw₃, g₃⟩]) := by
            unfold stops_after_false
            refine List.pairwise_append.mpr ⟨hst₁, List.pairwise_singleton _ _, ?_⟩
            intro a ha b hb hfa
            rw [List.mem_singleton.mp hb]
            exact hcross a ha ⟨t, hw₂, g₂⟩ (List.mem_singleton_self _) hfa
          have hlt := stored_lt_of_stops kp P G hP hdvd hcalls hrunE hstopE
          have hsim := run_u32_eq_run hP hPG hT (xs ++ [t]) (fresh_pools (G / P)) _ _ hpl
            hrunE (fun e he g hg => lt_of_lt_of_le (hlt e he g hg) hbound)
          rw [fresh_pools_wrap, hrun] at hsim
          obtain ⟨h₄, h₅⟩ := Prod.mk.inj (Option.some.inj hsim)
          rw [h₄, h₅]
          exact ⟨_, hrunE, rfl⟩

end Wrap

/-- C16 (no wraparound in the remap under a size bound). With `uint`
arithmetic modulo `2 ^ 32`, counters initially zero, `G` a positive multiple
of `P > 0` and callers with `thread_index < G`, the run returns; and if every
thread makes no call after its first `false` and `T + G ≤ 2 ^ 32`
(`T = w * h * num_samples`, exact), the run is the run of the exact
arithmetic: every stored index is the exact value of
`(c / P) * G + pool * P + (c % P)`, it is `< T + G ≤ 2 ^ 32`, and a call returns
`true` only for an index `< T`, so no out-of-range index wraps around to a
value `< T`. -/
theorem no_wraparound (kp : KernelSplitParams) (P G : Nat) (calls : List Nat)
    (hP : 0 < P) (hG : 0 < G) (hdvd : P ∣ G) (hcalls : ∀ t ∈ calls, t < G)
    (hbound : kp.w * kp.h * kp.num_samples + G ≤ 2 ^ 32) :
    ∃ claims final32, run_u32 kp P G (fresh_pools (G / P)) calls = some (claims, final32) ∧
      (stops_after_false claims →
        (∃ final, run kp P G (fresh_pools (G / P)) calls = some (claims, final) ∧
          final32 = final.map wrap_uint) ∧
        (∀ e ∈ claims, ∀ g, e.global_work_index = some g →
          g < kp.w * kp.h * kp.num_samples + G ∧ g < 2 ^ 32 ∧
          (∃ c, g = (c / P) * G + (e.thread_index / P) * P + (c % P)) ∧
          (e.has_work = true ↔ g < kp.w * kp.h * kp.num_samples))) := by
  obtain ⟨claims, final32, hrun⟩ := run_u32_total kp P G hP calls
    (fresh_pools (G / P))
    (fun t ht => by rw [fresh_pools_length]; exact pool_lt_of_lt hdvd (hcalls t ht))
  refine ⟨claims, final32, hrun, fun hstop => ?_⟩
  obtain ⟨final, hrunE, hfin⟩ := run_u32_exact hP hG hdvd hbound calls hcalls claims final32
    hrun hstop
  refine ⟨⟨final, hrunE, hfin⟩, ?_⟩
  have hs := run_eq_spec hP
    (fun t ht => by rw [fresh_pools_length]; exact pool_lt_of_lt hdvd (hcalls t ht)) hrunE
  intro e he g hg
  have hlt := stored_lt_of_stops kp P G hP hdvd hcalls hrunE hstop e he g hg
  change g < total_work_size kp + G at hlt
  refine ⟨hlt, lt_of_lt_of_le hlt hbound, ?_, ?_⟩
  · rcases hs.sound e he with ⟨-, -, hn⟩ | ⟨-, c, -, -, hst, -⟩
    · rw [hn] at hg; cases hg
    · rw [hst] at hg
      exact ⟨c, (Option.some.inj hg).symm⟩
  · rcases hs.sound e he with ⟨-, -, hn⟩ | ⟨-, c, -, -, hst, hd⟩
    · rw [hn] at hg; cases hg
    · rw [hst] at hg
      rw [← Option.some.inj hg, hd]
      exact decide_eq_true_iff

theorem no_wraparound_witness :
    0 < 4 ∧ 0 < 8 ∧ 4 ∣ 8 ∧ (∀ t ∈ scenario_calls, t < 8) ∧
    scenario_tile.w * scenario_tile.h * scenario_tile.num_samples + 8 ≤ 2 ^ 32 ∧
    ∃ claims final32, run_u32 scenario_tile 4 8 (fresh_pools (8 / 4)) scenario_calls
        = some (claims, final32) ∧
      stops_after_false claims ∧
      (∃ final, run scenario_tile 4 8 (fresh_pools (8 / 4)) scenario_calls
          = some (claims, final) ∧ final32 = final.map wrap_uint) ∧
      (∀ e ∈ claims, ∀ g, e.global_work_index = some g →
        g < scenario_tile.w * scenario_tile.h * scenario_tile.num_samples + 8 ∧ g < 2 ^ 32 ∧
        (∃ c, g = (c / 4) * 8 + (e.thread_index / 4) * 4 + (c % 4)) ∧
        (e.has_work = true ↔
          g < scenario_tile.w * scenario_tile.h * scenario_tile.num_samples)) := by
  refine ⟨by decide, by decide, by decide, by decide, by decide, ?_⟩
  obtain ⟨claims, final32, hrun, h⟩ :=
    no_wraparound scenario_tile 4 8 scenario_calls (by decide) (by decide) (by decide)
      (by decide) (by decide)
  have hstop : stops_after_false claims := by
    have hval : run_u32 scenario_tile 4 8 (fresh_pools (8 / 4)) scenario_calls = some
        ([⟨0, true, some 0⟩, ⟨1, true, some 1⟩, ⟨2, true, some 2⟩, ⟨3, true, some 3⟩,
          ⟨4, true, some 4⟩, ⟨5, true, some 5⟩, ⟨6, true, some 6⟩, ⟨7, true, some 7⟩,
          ⟨0, true, some 8⟩, ⟨1, true, some 9⟩, ⟨2, true, some 10⟩, ⟨3, true, some 11⟩,
          ⟨4, true, some 12⟩, ⟨5, true, some 13⟩, ⟨6, true, some 14⟩, ⟨7, true, some 15⟩,
          ⟨0, false, some 16⟩, ⟨1, false, some 17⟩, ⟨2, false, some 18⟩, ⟨3, false, some 19⟩,
          ⟨4, false, some 20⟩, ⟨5, false, some 21⟩, ⟨6, false, some 22⟩, ⟨7, false, some 23⟩],
          [12, 12]) := by decide
    rw [hval] at hrun
    obtain ⟨rfl, -⟩ := Prod.mk.inj (Option.some.inj hrun)
    unfold stops_after_false
    decide
  exact ⟨claims, final32, hrun, hstop, h hstop⟩

/-! ## The code in arithmetic of 32 bits -/

section Uint

variable {kp : KernelSplitParams} {P G : Nat}

theorem global_index_u32_eq {pool c : Nat} (h : global_index P G pool c < 2 ^ 32) :
    global_index_u32 P G pool c = global_index P G pool c := by
  have h' := h
  unfold global_index at h' ⊢
  unfold global_index_u32
  rw [wrap_uint_of_lt (n := c / P * G) (by omega), wrap_uint_of_lt (n := pool * P) (by omega),
    wrap_uint_of_lt (n := c / P * G + pool * P) (by omega), wrap_uint_of_lt h']

theorem get_next_work_u32_step (kp : KernelSplitParams) (P G : Nat) (hP : 0 < P)
    (pools : List Nat) (t c : Nat)
    (ht : t < wrap_uint (wrap_uint (kp.w * kp.h) * kp.num_samples))
    (hc : pools[t / P]? = some c) :
    get_next_work_u32 kp P G pools t =
      some ⟨decide (global_index_u32 P G (t / P) c
          < wrap_uint (wrap_uint (kp.w * kp.h) * kp.num_samples)),
        some (global_index_u32 P G (t / P) c), pools.set (t / P) (wrap_uint (c + 1))⟩ := by
  have hne : P ≠ 0 := by omega
  simp only [get_next_work_u32, ge_iff_le, Nat.not_le.mpr ht, if_false, hne,
    atomic_fetch_and_inc_uint32_wrap, hc, global_index_u32]

theorem sub_uint_of_le {a b : Nat} (hb : b ≤ a) (ha : a < 2 ^ 32) : sub_uint a b = a - b := by
  unfold sub_uint
  rw [Nat.mod_eq_of_lt (lt_of_le_of_lt hb ha)]
  have h1 : a + 2 ^ 32 - b = a - b + 2 ^ 32 := by omega
  rw [h1, Nat.add_mod_right, Nat.mod_eq_of_lt (by omega)]

theorem get_work_pixel_u32_eq (hw : 0 < kp.w) (hh : 0 < kp.h) {i : Nat}
    (htp : kp.w * kp.h < 2 ^ 32) (hi : i < 2 ^ 32) (hx : kp.x + kp.w ≤ 2 ^ 32)
    (hy : kp.y + kp.h ≤ 2 ^ 32) (hs : kp.start_sample + i / (kp.w * kp.h) < 2 ^ 32) :
    get_work_pixel_u32 kp i =
      some (kp.x + i % (kp.w * kp.h) % kp.w, kp.y + i % (kp.w * kp.h) / kp.w,
        kp.start_sample + i / (kp.w * kp.h)) := by
  have hpos : 0 < kp.w * kp.h := Nat.mul_pos hw hh
  have hne : kp.w * kp.h ≠ 0 := by omega
  have hw' : kp.w ≠ 0 := by omega
  have h1 : i / (kp.w * kp.h) * (kp.w * kp.h) ≤ i := Nat.div_mul_le_self _ _
  have h2 : i - i / (kp.w * kp.h) * (kp.w * kp.h) = i % (kp.w * kp.h) := by
    rw [Nat.mod_def, Nat.mul_comm]
  have hpix : i % (kp.w * kp.h) < kp.w * kp.h := Nat.mod_lt _ hpos
  have h3 : i % (kp.w * kp.h) / kp.w * kp.w ≤ i % (kp.w * kp.h) := Nat.div_mul_le_self _ _
  have h4 : i % (kp.w * kp.h) - i % (kp.w * kp.h) / kp.w * kp.w = i % (kp.w * kp.h) % kp.w := by
    have := Nat.mod_def (i % (kp.w * kp.h)) kp.w
    rw [Nat.mul_comm kp.w (i % (kp.w * kp.h) / kp.w)] at this
    exact this.symm
  have hxo : i % (kp.w * kp.h) % kp.w < kp.w := Nat.mod_lt _ hw
  have hyo : i % (kp.w * kp.h) / kp.w < kp.h := Nat.div_lt_of_lt_mul hpix
  unfold get_work_pixel_u32
  simp only [wrap_uint_of_lt htp, hne, hw', if_false]
  rw [wrap_uint_of_lt (n := i / (kp.w * kp.h) * (kp.w * kp.h)) (by omega),
    sub_uint_of_le h1 hi, h2,
    wrap_uint_of_lt (n := i % (kp.w * kp.h) / kp.w * kp.w) (by omega),
    sub_uint_of_le h3 (by omega), h4,
    wrap_uint_of_lt (n := kp.x + i % (kp.w * kp.h) % kp.w) (by omega),
    wrap_uint_of_lt (n := kp.y + i % (kp.w * kp.h) / kp.w) (by omega),
    wrap_uint_of_lt hs]

theorem get_work_pixel_u32_of_lt (hw : 0 < kp.w) (hh : 0 < kp.h) {i : Nat}
    (hT : kp.w * kp.h * kp.num_samples < 2 ^ 32) (hx : kp.x + kp.w ≤ 2 ^ 32)
    (hy : kp.y + kp.h ≤ 2 ^ 32) (hs : kp.start_sample + kp.num_samples ≤ 2 ^ 32)
    (hi : i < kp.w * kp.h * kp.num_samples) :
    get_work_pixel_u32 kp i = get_work_pixel kp i := by
  have hn : 0 < kp.num_samples := by
    rcases Nat.eq_zero_or_pos kp.num_samples with h | h
    · rw [h] at hi; omega
    · exact h
  have htp : kp.w * kp.h < 2 ^ 32 :=
    lt_of_le_of_lt (Nat.le_mul_of_pos_right _ hn) hT
  have hso : i / (kp.w * kp.h) < kp.num_samples := Nat.div_lt_of_lt_mul hi
  rw [get_work_pixel_eq hw hh, get_work_pixel_u32_eq hw hh htp (by omega) hx hy (by omega)]

theorem run_u32_thread_zero (kp : KernelSplitParams) (P G : Nat) (hP : 0 < P)
    (ht : 0 < wrap_uint (wrap_uint (kp.w * kp.h) * kp.num_samples)) (rest : List Nat) :
    ∀ (n k : Nat), k + n < 2 ^ 32 →
    ∃ claims, run_u32 kp P G (k :: rest) (List.replicate n 0) = some (claims, (k + n) :: rest) := by
  intro n
  induction n with
  | zero => exact fun k _ => ⟨[], rfl⟩
  | succ n ih =>
    intro k hk
    have hstep := get_next_work_u32_step kp P G hP (k :: rest) 0 k ht (by simp)
    obtain ⟨claims, hrun⟩ := ih (k + 1) (by omega)
    rw [Nat.zero_div, List.set_cons_zero, wrap_uint_of_lt (n := k + 1) (by omega)] at hstep
    have hsum : k + (n + 1) = k + 1 + n := by omega
    refine ⟨⟨0, decide (global_index_u32 P G 0 k
      < wrap_uint (wrap_uint (kp.w * kp.h) * kp.num_samples)),
      some (global_index_u32 P G 0 k)⟩ :: claims, ?_⟩
    rw [List.replicate_succ, run_u32, hstep, hsum]
    simp only [hrun]

theorem run_u32_mono (kp : KernelSplitParams) (P G : Nat) (hP : 0 < P) :
    ∀ (calls pools : List Nat), (∀ u ∈ calls, u / P < pools.length) →
    (∀ j, j < pools.length → counter pools j + calls.length < 2 ^ 32) →
    ∃ claims final, run_u32 kp P G pools calls = some (claims, final) ∧
      final.length = pools.length ∧ ∀ j, counter pools j ≤ counter final j := by
  intro calls
  induction calls with
  | nil => exact fun pools _ _ => ⟨[], pools, rfl, rfl, fun _ => le_rfl⟩
  | cons t ts ih =>
    intro pools hcalls hroom
    have htp : t / P < pools.length := hcalls t (List.mem_cons_self _ _)
    have hts : ∀ u ∈ ts, u / P < pools.length :=
      fun u hu => hcalls u (List.mem_cons_of_mem _ hu)
    by_cases ht : t ≥ wrap_uint (wrap_uint (kp.w * kp.h) * kp.num_samples)
    · have hstep : get_next_work_u32 kp P G pools t = some ⟨false, none, pools⟩ := by
        simp only [get_next_work_u32, ht, if_true]
      obtain ⟨claims, final, hrun, hlen, hmono⟩ := ih pools hts (fun j hj => by
        have := hroom j hj
        rw [List.length_cons] at this
        omega)
      exact ⟨⟨t, false, none⟩ :: claims, final, by simp only [run_u32, hstep, hrun], hlen,
        hmono⟩
    · have hroom' := hroom (t / P) htp
      rw [List.length_cons] at hroom'
      have hstep := get_next_work_u32_step kp P G hP pools t (counter pools (t / P))
        (Nat.lt_of_not_le ht) (get_eq_counter htp)
      rw [wrap_uint_of_lt (n := counter pools (t / P) + 1) (by omega)] at hstep
      have hcnt : ∀ j, counter (pools.set (t / P) (counter pools (t / P) + 1)) j =
          if t / P = j then counter pools (t / P) + 1 else counter pools j :=
        fun j => counter_set pools _ j _ htp
      obtain ⟨claims, final, hrun, hlen, hmono⟩ :=
        ih (pools.set (t / P) (counter pools (t / P) + 1))
          (fun u hu => by rw [List.length_set]; exact hts u hu)
          (fun j hj => by
            rw [List.length_set] at hj
            have := hroom j hj
            rw [List.length_cons] at this
            rw [hcnt j]
            split
            · omega
            · omega)
      refine ⟨⟨t, decide (global_index_u32 P G (t / P) (counter pools (t / P))
          < wrap_uint (wrap_uint (kp.w * kp.h) * kp.num_samples)),
        some (global_index_u32 P G (t / P) (counter pools (t / P)))⟩ :: claims, final,
        by simp only [run_u32, hstep, hrun], ?_, ?_⟩
      · rw [hlen, List.length_set]
      · intro j
        refine le_trans ?_ (hmono j)
        rw [hcnt j]
        split
        · next h => rw [← h]; omega
        · exact le_rfl

end Uint

/-- C7, as stated, fails. On the tile `w = h = 65536`, `num_samples = 1`, thread
0 is below the work size `2 ^ 32`, yet its call leaves the counters `[0, 0]`
unchanged; and on the tile of work size `2 ^ 32 - 1`, with `P = 4`, `G = 8`, the
counter of pool 0 reaches `2 ^ 32 - 1` from zero and the next call of thread 0
takes it back to 0: a counter decreases. -/
theorem counter_wraps :
    0 < overflow_tile.w * overflow_tile.h * overflow_tile.num_samples ∧
    get_next_work_u32 overflow_tile 4 8 [0, 0] 0 = some ⟨false, none, [0, 0]⟩ ∧
    (∃ claims, run_u32 big_tile 4 8 [0, 0] (List.replicate 4294967295 0)
      = some (claims, [4294967295, 0])) ∧
    0 < big_tile.w * big_tile.h * big_tile.num_samples ∧
    get_next_work_u32 big_tile 4 8 [4294967295, 0] 0
      = some ⟨true, some 4294967291, [0, 0]⟩ :=
  ⟨by decide, by decide,
    Nat.zero_add 4294967295 ▸
      run_u32_thread_zero big_tile 4 8 (by decide) (by decide) [0] 4294967295 0 (by decide),
    by decide, by decide⟩

/-- C7, amended. Provided `T = w * h * num_samples < 2 ^ 32`: a call of
`get_next_work` with `thread_index ≥ T` leaves the whole counter array
unchanged; a call with `thread_index < T` whose counter, at index
`thread_index / P`, holds a value `c < 2 ^ 32 - 1` increases that counter by
exactly 1 and leaves every other counter unchanged, whatever it returns;
consequently no counter decreases along a sequence of `n` calls started from
counters that are all `< 2 ^ 32 - n`. -/
theorem get_next_work_counters (kp : KernelSplitParams) (P G : Nat) (work_pools : List Nat)
    (thread_index : Nat) (hT : kp.w * kp.h * kp.num_samples < 2 ^ 32) :
    (kp.w * kp.h * kp.num_samples ≤ thread_index →
      ∃ r, get_next_work_u32 kp P G work_pools thread_index = some r ∧
        r.work_pools = work_pools) ∧
    (thread_index < kp.w * kp.h * kp.num_samples → 0 < P →
      ∀ c, work_pools[thread_index / P]? = some c → c + 1 < 2 ^ 32 →
      ∃ r, get_next_work_u32 kp P G work_pools thread_index = some r ∧
        r.work_pools.length = work_pools.length ∧
        r.work_pools[thread_index / P]? = some (c + 1) ∧
        ∀ j, j ≠ thread_index / P → r.work_pools[j]? = work_pools[j]?) ∧
    (0 < P → ∀ calls : List Nat, (∀ u ∈ calls, u / P < work_pools.length) →
      (∀ (j a : Nat), work_pools[j]? = some a → a + calls.length < 2 ^ 32) →
      ∃ claims final, run_u32 kp P G work_pools calls = some (claims, final) ∧
        final.length = work_pools.length ∧
        ∀ (j a b : Nat), work_pools[j]? = some a → final[j]? = some b → a ≤ b) := by
  have hwrap : wrap_uint (wrap_uint (kp.w * kp.h) * kp.num_samples)
      = kp.w * kp.h * kp.num_samples := total_work_size_u32 hT
  refine ⟨fun ht => ⟨_, get_next_work_u32_early hT ht, rfl⟩, ?_, ?_⟩
  · intro ht hP c hc hroom
    have hpool : thread_index / P < work_pools.length := by
      obtain ⟨h, -⟩ := List.getElem?_eq_some.mp hc
      exact h
    refine ⟨_, get_next_work_u32_step kp P G hP work_pools thread_index c
      (by rw [hwrap]; exact ht) hc, ?_, ?_, ?_⟩
    · exact List.length_set _ _ _
    · simp only
      rw [wrap_uint_of_lt hroom, List.getElem?_set, if_pos rfl, if_pos hpool]
    · intro j hj
      simp only
      rw [List.getElem?_set, if_neg (Ne.symm hj)]
  · intro hP calls hcalls hroom
    obtain ⟨claims, final, hrun, hlen, hmono⟩ := run_u32_mono kp P G hP calls work_pools hcalls
      (fun j hj => hroom j _ (get_eq_counter hj))
    refine ⟨claims, final, hrun, hlen, ?_⟩
    intro j a b ha hb
    rw [← counter_of_get ha, ← counter_of_get hb]
    exact hmono j

theorem get_next_work_counters_witness :
    scenario_tile.w * scenario_tile.h * scenario_tile.num_samples < 2 ^ 32 ∧
    (∃ r, get_next_work_u32 scenario_tile 4 8 [2, 6] 20 = some r ∧ r.work_pools = [2, 6]) ∧
    (∃ r, get_next_work_u32 scenario_tile 4 8 [2, 6] 5 = some r ∧
        r.work_pools.length = [2, 6].length ∧
        r.work_pools[5 / 4]? = some (6 + 1) ∧
        ∀ j, j ≠ 5 / 4 → r.work_pools[j]? = [2, 6][j]?) ∧
    (∃ claims final, run_u32 scenario_tile 4 8 [2, 6] scenario_calls = some (claims, final) ∧
        final.length = [2, 6].length ∧
        ∀ (j a b : Nat), [2, 6][j]? = some a → final[j]? = some b → a ≤ b) :=
  ⟨by decide,
    (get_next_work_counters scenario_tile 4 8 [2, 6] 20 (by decide)).1 (by decide),
    (get_next_work_counters scenario_tile 4 8 [2, 6] 5 (by decide)).2.1 (by decide)
      (by decide) 6 (by decide) (by decide),
    (get_next_work_counters scenario_tile 4 8 [2, 6] 5 (by decide)).2.2 (by decide)
      scenario_calls (by decide) (by
        intro j a h
        have hj : j < 2 := by
          obtain ⟨hlt, -⟩ := List.getElem?_eq_some.mp h
          exact hlt
        interval_cases j <;> simp at h <;> subst h <;> decide)⟩

/-- C6, as stated, fails. On the tile `w = h = 65536` (both `> 0`) the code
divides by `tile_pixels = 0`, where the formula gives `(5, 0, 0)` for index 5;
and on the tile at `origin_x = 2 ^ 32 - 1` the code yields `x = 0` for index 1,
where the formula gives `origin_x + 1 = 2 ^ 32`. -/
theorem get_work_pixel_u32_off_formula :
    0 < overflow_tile.w ∧ 0 < overflow_tile.h ∧
    get_work_pixel_u32 overflow_tile 5 = none ∧
    0 < edge_tile.w ∧ 0 < edge_tile.h ∧
    get_work_pixel_u32 edge_tile 1 = some (0, 0, 0) ∧
    edge_tile.x + 1 % (edge_tile.w * edge_tile.h) % edge_tile.w = 4294967296 ∧
    get_work_pixel_u32 edge_tile 1 ≠
      some (edge_tile.x + 1 % (edge_tile.w * edge_tile.h) % edge_tile.w,
        edge_tile.y + 1 % (edge_tile.w * edge_tile.h) / edge_tile.w,
        edge_tile.start_sample + 1 / (edge_tile.w * edge_tile.h)) := by
  decide

/-- C6, amended. For a tile with `w > 0` and `h > 0` that fits 32 bits
(`w * h < 2 ^ 32`, `origin_x + w ≤ 2 ^ 32`, `origin_y + h ≤ 2 ^ 32`) and every
index `i < 2 ^ 32` with `start_sample + i / (w*h) < 2 ^ 32`, `get_work_pixel`
yields `x = origin_x + ((i mod (w*h)) mod w)`, `y = origin_y + ((i mod (w*h)) / w)`,
`sample = start_sample + i / (w*h)`: the subtraction-based code equals the
div/mod reference. -/
theorem get_work_pixel_formula (kp : KernelSplitParams) (i : Nat) (hw : 0 < kp.w)
    (hh : 0 < kp.h) (htp : kp.w * kp.h < 2 ^ 32) (hi : i < 2 ^ 32)
    (hx : kp.x + kp.w ≤ 2 ^ 32) (hy : kp.y + kp.h ≤ 2 ^ 32)
    (hs : kp.start_sample + i / (kp.w * kp.h) < 2 ^ 32) :
    get_work_pixel_u32 kp i =
      some (kp.x + i % (kp.w * kp.h) % kp.w, kp.y + i % (kp.w * kp.h) / kp.w,
        kp.start_sample + i / (kp.w * kp.h)) :=
  get_work_pixel_u32_eq hw hh htp hi hx hy hs

theorem get_work_pixel_formula_witness :
    0 < scenario_tile.w ∧ 0 < scenario_tile.h ∧
    scenario_tile.w * scenario_tile.h < 2 ^ 32 ∧ 5 < 2 ^ 32 ∧
    scenario_tile.x + scenario_tile.w ≤ 2 ^ 32 ∧ scenario_tile.y + scenario_tile.h ≤ 2 ^ 32 ∧
    scenario_tile.start_sample + 5 / (scenario_tile.w * scenario_tile.h) < 2 ^ 32 ∧
    get_work_pixel_u32 scenario_tile 5 = some (1, 1, 0) ∧
    get_work_pixel_u32 scenario_tile 5 =
      some (scenario_tile.x + 5 % (scenario_tile.w * scenario_tile.h) % scenario_tile.w,
        scenario_tile.y + 5 % (scenario_tile.w * scenario_tile.h) / scenario_tile.w,
        scenario_tile.start_sample + 5 / (scenario_tile.w * scenario_tile.h)) :=
  ⟨by decide, by decide, by decide, by decide, by decide, by decide, by decide, by decide,
    get_work_pixel_formula scenario_tile 5 (by decide) (by decide) (by decide) (by decide)
      (by decide) (by decide) (by decide)⟩

/-- C12, as stated, fails. On the tile at `origin_x = 2 ^ 32 - 1` with `w = 4`,
`h = 2`, one sample (`T = 8`), indices `0 < 1 < T` give the triples
`(sample, y, x) = (0, 0, 2 ^ 32 - 1)` and `(0, 0, 0)`: the first is not
lexicographically smaller than the second. -/
theorem get_work_pixel_u32_order_wraps :
    0 < edge_tile.w ∧ 0 < edge_tile.h ∧ 0 < 1 ∧
    1 < edge_tile.w * edge_tile.h * edge_tile.num_samples ∧
    get_work_pixel_u32 edge_tile 0 = some (4294967295, 0, 0) ∧
    get_work_pixel_u32 edge_tile 1 = some (0, 0, 0) ∧
    ¬ (0 < 0 ∨ (0 = 0 ∧ (0 < 0 ∨ (0 = 0 ∧ 4294967295 < 0)))) := by
  decide

/-- C12, amended. For a tile with `w > 0`, `h > 0` that fits 32 bits
(`w * h * num_samples < 2 ^ 32`, `origin_x + w ≤ 2 ^ 32`, `origin_y + h ≤ 2 ^ 32`,
`start_sample + num_samples ≤ 2 ^ 32`) and indices `i < j < w*h*num_samples`,
the triple `(sample, y, x)` produced by `get_work_pixel` for `i` is
lexicographically strictly smaller than the one produced for `j`. -/
theorem get_work_pixel_lex (kp : KernelSplitParams) (i j : Nat) (hw : 0 < kp.w)
    (hh : 0 < kp.h) (hT : kp.w * kp.h * kp.num_samples < 2 ^ 32)
    (hx : kp.x + kp.w ≤ 2 ^ 32) (hy : kp.y + kp.h ≤ 2 ^ 32)
    (hs : kp.start_sample + kp.num_samples ≤ 2 ^ 32)
    (hij : i < j) (hj : j < kp.w * kp.h * kp.num_samples) :
    ∃ xi yi si xj yj sj,
      get_work_pixel_u32 kp i = some (xi, yi, si) ∧
      get_work_pixel_u32 kp j = some (xj, yj, sj) ∧
      (si < sj ∨ (si = sj ∧ (yi < yj ∨ (yi = yj ∧ xi < xj)))) := by
  have hi : i < kp.w * kp.h * kp.num_samples := lt_trans hij hj
  refine ⟨_, _, _, _, _, _,
    (get_work_pixel_u32_of_lt hw hh hT hx hy hs hi).trans (get_work_pixel_eq hw hh i),
    (get_work_pixel_u32_of_lt hw hh hT hx hy hs hj).trans (get_work_pixel_eq hw hh j), ?_⟩
  rcases div_mod_lex (n := kp.w * kp.h) hij with hs | ⟨hs, hpix⟩
  · exact Or.inl (Nat.add_lt_add_left hs _)
  · right
    refine ⟨by rw [hs], ?_⟩
    rcases div_mod_lex (n := kp.w) hpix with hy | ⟨hy, hx⟩
    · exact Or.inl (Nat.add_lt_add_left hy _)
    · exact Or.inr ⟨by rw [hy], Nat.add_lt_add_left hx _⟩

theorem get_work_pixel_lex_witness :
    0 < scenario_tile.w ∧ 0 < scenario_tile.h ∧
    scenario_tile.w * scenario_tile.h * scenario_tile.num_samples < 2 ^ 32 ∧
    scenario_tile.x + scenario_tile.w ≤ 2 ^ 32 ∧ scenario_tile.y + scenario_tile.h ≤ 2 ^ 32 ∧
    scenario_tile.start_sample + scenario_tile.num_samples ≤ 2 ^ 32 ∧ 3 < 4 ∧
    4 < scenario_tile.w * scenario_tile.h * scenario_tile.num_samples ∧
    get_work_pixel_u32 scenario_tile 3 = some (3, 0, 0) ∧
    get_work_pixel_u32 scenario_tile 4 = some (0, 1, 0) ∧
    ∃ xi yi si xj yj sj,
      get_work_pixel_u32 scenario_tile 3 = some (xi, yi, si) ∧
      get_work_pixel_u32 scenario_tile 4 = some (xj, yj, sj) ∧
      (si < sj ∨ (si = sj ∧ (yi < yj ∨ (yi = yj ∧ xi < xj)))) :=
  ⟨by decide, by decide, by decide, by decide, by decide, by decide, by decide, by decide,
    by decide, by decide,
    get_work_pixel_lex scenario_tile 3 4 (by decide) (by decide) (by decide) (by decide)
      (by decide) (by decide) (by decide) (by decide)⟩

/-- C8, as stated, fails. On the tile of work size `T = 2 ^ 32 - 1`, with
`P = 4`, `G = 8`, after `2 ^ 31 - 1` calls of thread 0 from zeroed counters the
next two calls of thread 0 (pool 0) are handed 4294967291 and then 0, both with
`true`: the indices handed out within the pool are not increasing. -/
theorem pool_order_wraps :
    0 < 4 ∧ 0 < 8 ∧ 4 ∣ 8 ∧ 0 < 8 / 4 ∧ fresh_pools (8 / 4) = [0, 0] ∧
    (∃ earlier final,
      run_u32 big_tile 4 8 [0, 0] (List.replicate 2147483647 0 ++ [0, 0])
        = some (earlier ++ [⟨0, true, some 4294967291⟩, ⟨0, true, some 0⟩], final)) ∧
    ¬ (4294967291 < 0) := by
  refine ⟨by decide, by decide, by decide, by decide, by decide, ?_, by decide⟩
  obtain ⟨earlier, h⟩ :=
    run_u32_thread_zero big_tile 4 8 (by decide) (by decide) [0] 2147483647 0 (by decide)
  rw [Nat.zero_add] at h
  have h₂ : run_u32 big_tile 4 8 [2147483647, 0] [0, 0]
      = some ([⟨0, true, some 4294967291⟩, ⟨0, true, some 0⟩], [2147483649, 0]) := by decide
  refine ⟨earlier, [2147483649, 0], ?_⟩
  rw [run_u32_append, h]
  simp only [h₂]

/-- C8, amended. For `P > 0`, `G` a positive multiple of `P` and `pool < G / P`,
the remap `c ↦ (c / P) * G + pool * P + (c % P)` is strictly increasing in the
counter value `c` as long as it does not wrap (its value at the larger counter
is `< 2 ^ 32`); hence in every run from zeroed counters with `T + G ≤ 2 ^ 32` in
which threads stop after their first `false`, the `global_work_index` values
stored by the successive calls of one pool, and among them those handed out
with `true`, are strictly increasing in call order. -/
theorem global_index_increasing (P G pool : Nat) (hP : 0 < P) (hG : 0 < G) (hdvd : P ∣ G)
    (hpool : pool < G / P) :
    (∀ c d, c < d → (d / P) * G + pool * P + (d % P) < 2 ^ 32 →
      global_index_u32 P G pool c < global_index_u32 P G pool d) ∧
    (∀ (kp : KernelSplitParams) (calls : List Nat), (∀ t ∈ calls, t < G) →
      kp.w * kp.h * kp.num_samples + G ≤ 2 ^ 32 →
      ∃ claims final, run_u32 kp P G (fresh_pools (G / P)) calls = some (claims, final) ∧
        (stops_after_false claims →
          (stored_by_pool P pool claims).Pairwise (· < ·) ∧
          (validated_by_pool P pool claims).Pairwise (· < ·))) := by
  constructor
  · intro c d hcd hfit
    have hlt := global_index_lt hP hdvd hpool hcd
    have hd : global_index P G pool d < 2 ^ 32 := hfit
    rw [global_index_u32_eq hd, global_index_u32_eq (lt_trans hlt hd)]
    exact hlt
  · intro kp calls hcalls hbound
    obtain ⟨claims, final32, hrun⟩ := run_u32_total kp P G hP calls (fresh_pools (G / P))
      (fun t ht => by rw [fresh_pools_length]; exact pool_lt_of_lt hdvd (hcalls t ht))
    refine ⟨claims, final32, hrun, fun hstop => ?_⟩
    obtain ⟨final, hrunE, -⟩ := run_u32_exact hP hG hdvd hbound calls hcalls claims final32
      hrun hstop
    have hpw := run_stored_increasing hP hdvd hpool calls _ claims final (fresh_pools_length _)
      hcalls hrunE
    exact ⟨hpw, List.Pairwise.sublist (validated_sublist _) hpw⟩

theorem global_index_increasing_witness :
    0 < 4 ∧ 0 < 8 ∧ 4 ∣ 8 ∧ 1 < 8 / 4 ∧ 0 < 4 ∧ (4 / 4) * 8 + 1 * 4 + (4 % 4) < 2 ^ 32 ∧
    (∀ t ∈ scenario_calls, t < 8) ∧
    scenario_tile.w * scenario_tile.h * scenario_tile.num_samples + 8 ≤ 2 ^ 32 ∧
    global_index_u32 4 8 1 0 < global_index_u32 4 8 1 4 ∧
    ∃ claims final, run_u32 scenario_tile 4 8 (fresh_pools (8 / 4)) scenario_calls
        = some (claims, final) ∧
      stops_after_false claims ∧
      (stored_by_pool 4 1 claims).Pairwise (· < ·) ∧
      (validated_by_pool 4 1 claims).Pairwise (· < ·) := by
  have h := global_index_increasing 4 8 1 (by decide) (by decide) (by decide) (by decide)
  refine ⟨by decide, by decide, by decide, by decide, by decide, by decide, by decide,
    by decide, h.1 0 4 (by decide) (by decide), ?_⟩
  obtain ⟨claims, final, hrun, himp⟩ := h.2 scenario_tile scenario_calls (by decide) (by decide)
  have hstop : stops_after_false claims := by
    have hval : run_u32 scenario_tile 4 8 (fresh_pools (8 / 4)) scenario_calls = some
        ([⟨0, true, some 0⟩, ⟨1, true, some 1⟩, ⟨2, true, some 2⟩, ⟨3, true, some 3⟩,
          ⟨4, true, some 4⟩, ⟨5, true, some 5⟩, ⟨6, true, some 6⟩, ⟨7, true, some 7⟩,
          ⟨0, true, some 8⟩, ⟨1, true, some 9⟩, ⟨2, true, some 10⟩, ⟨3, true, some 11⟩,
          ⟨4, true, some 12⟩, ⟨5, true, some 13⟩, ⟨6, true, some 14⟩, ⟨7, true, some 15⟩,
          ⟨0, false, some 16⟩, ⟨1, false, some 17⟩, ⟨2, false, some 18⟩, ⟨3, false, some 19⟩,
          ⟨4, false, some 20⟩, ⟨5, false, some 21⟩, ⟨6, false, some 22⟩, ⟨7, false, some 23⟩],
          [12, 12]) := by decide
    rw [hval] at hrun
    obtain ⟨rfl, -⟩ := Prod.mk.inj (Option.some.inj hrun)
    unfold stops_after_false
    decide
  exact ⟨claims, final, hrun, hstop, himp hstop⟩

/-- When nothing wraps (`T + G ≤ 2 ^ 32`, threads stopping after their first
`false`), every index stored for a thread belongs to the rounds of the thread's
own pool. -/
theorem run_u32_own_pool (kp : KernelSplitParams) (P G : Nat) (calls : List Nat)
    (hP : 0 < P) (hG : 0 < G) (hdvd : P ∣ G) (hcalls : ∀ t ∈ calls, t < G)
    (hbound : kp.w * kp.h * kp.num_samples + G ≤ 2 ^ 32)
    {claims : List Claim} {final32 : List Nat}
    (hrun : run_u32 kp P G (fresh_pools (G / P)) calls = some (claims, final32))
    (hstop : stops_after_false claims) :
    ∀ e ∈ claims, ∀ g, e.global_work_index = some g → g % G / P = e.thread_index / P := by
  obtain ⟨final, hrunE, -⟩ := run_u32_exact hP hG hdvd hbound calls hcalls claims final32
    hrun hstop
  have hs := run_eq_spec hP
    (fun t ht => by rw [fresh_pools_length]; exact pool_lt_of_lt hdvd (hcalls t ht)) hrunE
  intro e he g hg
  have heG : e.thread_index < G := by
    apply hcalls; rw [← hs.threads]; exact List.mem_map_of_mem _ he
  rcases hs.sound e he with ⟨-, -, hn⟩ | ⟨-, c, -, -, hst, -⟩
  · rw [hn] at hg; cases hg
  · rw [hst] at hg
    rw [← Option.some.inj hg]
    exact global_index_pool hP hdvd (pool_lt_of_lt hdvd heG)

/-- C14, amended. For `P > 0`, `G ≤ 2 ^ 32` a positive multiple of `P`, any tile
of work size `T` and any `thread_index` with `T ≤ thread_index < G`:
`get_next_work` returns `false` to that thread without touching a counter. If
the first thread of its pool is itself at or beyond the work size,
`T ≤ (thread_index / P) * P`, every thread of the pool is stopped by the early
exit in the same way, and no counter value whose remap does not wrap remaps to
a valid index. Otherwise the thread with index `(thread_index / P) * P` belongs
to the same pool, is not stopped by the early exit, and on zeroed counters
`get_next_work` hands it the valid index `(thread_index / P) * P`. -/
theorem beyond_work_size_pool (kp : KernelSplitParams) (P G thread_index : Nat) (hP : 0 < P)
    (_hG : 0 < G) (hdvd : P ∣ G) (hG32 : G ≤ 2 ^ 32)
    (hge : kp.w * kp.h * kp.num_samples ≤ thread_index) (hlt : thread_index < G) :
    (∀ work_pools, get_next_work_u32 kp P G work_pools thread_index
      = some ⟨false, none, work_pools⟩) ∧
    (kp.w * kp.h * kp.num_samples ≤ thread_index / P * P →
      (∀ u work_pools, u / P = thread_index / P →
        get_next_work_u32 kp P G work_pools u = some ⟨false, none, work_pools⟩) ∧
      (∀ c, (c / P) * G + (thread_index / P) * P + (c % P) < 2 ^ 32 →
        kp.w * kp.h * kp.num_samples ≤ global_index_u32 P G (thread_index / P) c)) ∧
    (thread_index / P * P < kp.w * kp.h * kp.num_samples →
      thread_index / P * P / P = thread_index / P ∧
      get_next_work_u32 kp P G (fresh_pools (G / P)) (thread_index / P * P)
        = some ⟨true, some (thread_index / P * P),
          (fresh_pools (G / P)).set (thread_index / P) 1⟩) := by
  have hT : total_work_size kp < 2 ^ 32 := by unfold total_work_size; omega
  have hwrap : wrap_uint (wrap_uint (kp.w * kp.h) * kp.num_samples)
      = kp.w * kp.h * kp.num_samples := total_work_size_u32 hT
  have hp : thread_index / P < G / P := pool_lt_of_lt hdvd hlt
  have hfirst : thread_index / P * P ≤ thread_index := Nat.div_mul_le_self _ _
  refine ⟨fun pools => get_next_work_u32_early hT hge, fun hall => ⟨?_, ?_⟩, fun hsome => ?_⟩
  · intro u pools hu
    have hle : u / P * P ≤ u := Nat.div_mul_le_self _ _
    rw [hu] at hle
    exact get_next_work_u32_early hT (le_trans hall hle)
  · intro c hfit
    have hc : global_index P G (thread_index / P) c < 2 ^ 32 := hfit
    rw [global_index_u32_eq hc]
    unfold global_index
    omega
  · have hdiv : thread_index / P * P / P = thread_index / P := Nat.mul_div_cancel _ hP
    refine ⟨hdiv, ?_⟩
    have hzero : global_index P G (thread_index / P) 0 = thread_index / P * P := by
      unfold global_index
      simp
    have hget : (fresh_pools (G / P))[thread_index / P * P / P]? = some 0 := by
      rw [hdiv, get_eq_counter (by rw [fresh_pools_length]; exact hp), counter_fresh]
    have hstep := get_next_work_u32_step kp P G hP (fresh_pools (G / P))
      (thread_index / P * P) 0 (by rw [hwrap]; exact hsome) hget
    rw [hdiv, global_index_u32_eq (by rw [hzero]; omega), hzero, hwrap,
      wrap_uint_of_lt (n := 0 + 1) (by decide)] at hstep
    rw [hstep, decide_eq_true hsome]

theorem beyond_work_size_pool_witness :
    0 < 4 ∧ 0 < 8 ∧ 4 ∣ 8 ∧ 8 ≤ 2 ^ 32 ∧
    small_tile.w * small_tile.h * small_tile.num_samples ≤ 7 ∧ 7 < 8 ∧
    7 / 4 * 4 < small_tile.w * small_tile.h * small_tile.num_samples ∧
    (∀ work_pools, get_next_work_u32 small_tile 4 8 work_pools 7
      = some ⟨false, none, work_pools⟩) ∧
    (7 / 4 * 4 / 4 = 7 / 4 ∧
      get_next_work_u32 small_tile 4 8 (fresh_pools (8 / 4)) (7 / 4 * 4)
        = some ⟨true, some (7 / 4 * 4), (fresh_pools (8 / 4)).set (7 / 4) 1⟩) ∧
    (small_tile.w * small_tile.h * small_tile.num_samples ≤ 11 / 4 * 4 ∧
      (∀ u work_pools, u / 4 = 11 / 4 →
        get_next_work_u32 small_tile 4 12 work_pools u = some ⟨false, none, work_pools⟩) ∧
      (∀ c, (c / 4) * 12 + (11 / 4) * 4 + (c % 4) < 2 ^ 32 →
        small_tile.w * small_tile.h * small_tile.num_samples
          ≤ global_index_u32 4 12 (11 / 4) c)) :=
  ⟨by decide, by decide, by decide, by decide, by decide, by decide, by decide,
    (beyond_work_size_pool small_tile 4 8 7 (by decide) (by decide) (by decide) (by decide)
      (by decide) (by decide)).1,
    (beyond_work_size_pool small_tile 4 8 7 (by decide) (by decide) (by decide) (by decide)
      (by decide) (by decide)).2.2 (by decide),
    by decide,
    (beyond_work_size_pool small_tile 4 12 11 (by decide) (by decide) (by decide) (by decide)
      (by decide) (by decide)).2.1 (by decide)⟩

end WorkStealing
